import Mathlib

/-!
# Verification of the container-image update-detection core

A shallow embedding of the update-detection engine of the
`image-container-reporter` repository, together with proofs about it.

The embedding covers:
* the version comparator (`pkg/utils/version.go`),
* the registry cache and the cached registry client (`internal/cache`),
* the scan orchestrator's per-task and batch logic (`internal/scanner/scanner.go`).

Go strings are modelled as Lean `String` values; every string operation used by
the code is re-implemented explicitly over the underlying character list so
that all definitions compute by kernel reduction.  Go byte-wise string
comparison coincides with code-point-wise comparison on valid UTF-8, which is
how it is modelled here.  Go's `strings.ToLower` is modelled on its ASCII
subset (all tags and suffixes handled by the code are ASCII).  `time.Time` /
`time.Duration` values are modelled as mathematical integers (nanoseconds); an
explicit `now` parameter replaces calls to `time.Now()` / `time.Since`.
`int64` statistics counters are modelled as `Int` (overflow of the 64-bit
counters is not modelled).  `float64` arithmetic in `HitRate` is modelled over
`ℚ`; the quantities involved in the claims are exactly representable.
-/

namespace ImageReporter

/-! ## Character and string primitives (models of Go `strings`/`regexp` usage) -/

/-- Decimal digit, the regex class `[0-9]`. -/
def isDigitChar (c : Char) : Bool := '0' ≤ c && c ≤ '9'

/-- The regex class `[0-9\.\-]` used by the suffix patterns in `version.go`. -/
def isSuffixTailChar (c : Char) : Bool := isDigitChar c || c = '.' || c = '-'

/-- The regex class `[0-9A-Za-z\-]` of semver prerelease/metadata identifiers. -/
def isIdentChar (c : Char) : Bool :=
  isDigitChar c || ('a' ≤ c && c ≤ 'z') || ('A' ≤ c && c ≤ 'Z') || c = '-'

/-- ASCII letter, the regex class `[a-zA-Z]`. -/
def isAsciiLetter (c : Char) : Bool := ('a' ≤ c && c ≤ 'z') || ('A' ≤ c && c ≤ 'Z')

/-- ASCII lower-casing of one character (model of Go `strings.ToLower`,
restricted to the ASCII subset actually exercised by the code). -/
def goLowerChar (c : Char) : Char :=
  if 'A' ≤ c && c ≤ 'Z' then Char.ofNat (c.toNat + 32) else c

/-- Model of `strings.ToLower`. -/
def goToLower (s : String) : String := String.mk (s.data.map goLowerChar)

/-- Byte-wise "less than" on strings as used by Go's `<`/`>` operators,
modelled code-point-wise on the character lists (identical on valid UTF-8). -/
def charListLt : List Char → List Char → Bool
  | [], [] => false
  | [], _ :: _ => true
  | _ :: _, [] => false
  | a :: as, b :: bs => if a < b then true else if b < a then false else charListLt as bs

/-- Go `s > t` (string comparison), i.e. `t` is strictly below `s`. -/
def goStrGt (s t : String) : Bool := charListLt t.data s.data

/-- Model of Go `strings.Contains`. -/
def goContains (s sub : String) : Bool :=
  (List.range (s.length + 1)).any (fun i => sub.data.isPrefixOf (s.data.drop i))

/-- Model of Go `strings.TrimPrefix(s, "v")`. -/
def goTrimPrefixV (s : String) : String :=
  match s.data with
  | 'v' :: rest => String.mk rest
  | _ => s

/-- Model of Go `strings.Split` on a one-character separator. -/
def splitOnChar (sep : Char) : List Char → List (List Char)
  | [] => [[]]
  | c :: cs =>
    let r := splitOnChar sep cs
    if c = sep then [] :: r
    else (c :: r.headD []) :: r.tail

/-- Numeric value of a digit string (the digits are already validated). -/
def digitsToNat (ds : List Char) : Nat :=
  ds.foldl (fun n c => n * 10 + (c.toNat - '0'.toNat)) 0

/-- Model of Go `strconv.ParseUint(s, 10, 64)` on an all-digit string `ds`:
fails only on 64-bit overflow. -/
def parseUint64Digits (ds : List Char) : Option Nat :=
  let n := digitsToNat ds
  if n < 2 ^ 64 then some n else none

/-- Model of Go `strconv.ParseInt(s, 10, 64)`: optional sign, digits,
64-bit signed range check. -/
def parseGoInt64 (s : String) : Option Int :=
  match s.data with
  | [] => none
  | cs =>
    let p : Int × List Char :=
      match cs with
      | '+' :: r => (1, r)
      | '-' :: r => (-1, r)
      | r => (1, r)
    if p.2.isEmpty || !p.2.all isDigitChar then none
    else
      let n : Int := p.1 * (digitsToNat p.2 : Int)
      if n < -(2 ^ 63) || n > 2 ^ 63 - 1 then none else some n

/-! ## Semantic versions (model of the `Masterminds/semver/v3` dependency)

`version.go` delegates parsing and comparison of semantic versions to the
external library `github.com/Masterminds/semver/v3` (pinned at v3.4.0 in
`go.mod`, not part of this repository's sources).  The definitions in this
section model that library's `NewVersion`, `Compare`/`LessThan` and `String`
on `Version` values faithfully. -/

/-- A parsed semantic version: the fields of `semver.Version` that
`NewVersion` fills in (the `original` string is not needed here). -/
structure SemVer where
  major : Nat
  minor : Nat
  patch : Nat
  pre : String
  metadata : String
deriving DecidableEq, Repr

/-- Parse a dot-separated sequence of `[0-9A-Za-z-]+` identifiers, returning
the raw consumed text and the unconsumed remainder.  This is the deterministic
equivalent of matching the anchored regex fragment
`([0-9A-Za-z\-]+(\.[0-9A-Za-z\-]+)*)` greedily (the identifier class excludes
both separators `.` and `+`, so the regex match is unambiguous). -/
def parseIdentSeq : Nat → List Char → Option (List Char × List Char)
  | 0, _ => none
  | fuel + 1, cs =>
    let sp := cs.span isIdentChar
    if sp.1.isEmpty then none
    else
      match sp.2 with
      | '.' :: rest2 =>
        match parseIdentSeq fuel rest2 with
        | some (ids, rest3) => some (sp.1 ++ '.' :: ids, rest3)
        | none => none
      | rest => some (sp.1, rest)

/-- Optionally consume `\.[0-9]+` returning its numeric value. -/
def chompDotNum (cs : List Char) : Option (Nat × List Char) :=
  match cs with
  | '.' :: rest =>
    let sp := rest.span isDigitChar
    if sp.1.isEmpty then none
    else
      match parseUint64Digits sp.1 with
      | some n => some (n, sp.2)
      | none => none
  | _ => none

/-- Model of `semver.NewVersion`: full anchored match of
`^v?([0-9]+)(\.[0-9]+)?(\.[0-9]+)?(-(pre))?(\+(metadata))?$` with each numeric
segment read by `strconv.ParseUint(_, 10, 64)`; absent minor/patch segments
are zero. -/
def newVersion (v : String) : Option SemVer :=
  let cs0 := v.data
  let cs := match cs0 with
    | 'v' :: rest => rest
    | _ => cs0
  let spMaj := cs.span isDigitChar
  if spMaj.1.isEmpty then none
  else
    match parseUint64Digits spMaj.1 with
    | none => none
    | some major =>
      let minorSt : Nat × List Char :=
        match chompDotNum spMaj.2 with
        | some (n, r) => (n, r)
        | none => (0, spMaj.2)
      let patchSt : Nat × List Char :=
        match chompDotNum minorSt.2 with
        | some (n, r) => (n, r)
        | none => (0, minorSt.2)
      let preSt : Option (String × List Char) :=
        match patchSt.2 with
        | '-' :: rest =>
          match parseIdentSeq (rest.length + 1) rest with
          | some (ids, r) => some (String.mk ids, r)
          | none => none
        | rest => some ("", rest)
      match preSt with
      | none => none
      | some (pre, afterPre) =>
        let metaSt : Option (String × List Char) :=
          match afterPre with
          | '+' :: rest =>
            match parseIdentSeq (rest.length + 1) rest with
            | some (ids, r) => some (String.mk ids, r)
            | none => none
          | rest => some ("", rest)
        match metaSt with
        | none => none
        | some (metadata, rest) =>
          if rest.isEmpty then
            some { major := major, minor := minorSt.1, patch := patchSt.1,
                   pre := pre, metadata := metadata }
          else none

/-- Model of the library's `comparePrePart` on two prerelease identifiers. -/
def comparePrePart (s o : String) : Int :=
  if s = o then 0
  else if s = "" then (if o ≠ "" then -1 else 1)
  else if o = "" then (if s ≠ "" then 1 else -1)
  else
    match parseGoInt64 o, parseGoInt64 s with
    | none, none => if goStrGt s o then 1 else -1
    | none, some _ => -1
    | some _, none => 1
    | some oi, some si => if si > oi then 1 else -1

/-- The tail of the `comparePrerelease` loop once the first identifier list is
exhausted: remaining identifiers of the second list are compared against the
`""` placeholder. -/
def comparePrePartsNil : List String → Int
  | [] => 0
  | y :: ys =>
    let d := comparePrePart "" y
    if d ≠ 0 then d else comparePrePartsNil ys

/-- Model of the library's `comparePrerelease` loop: the two identifier lists
are walked in lock step, padding the shorter one with `""`. -/
def comparePreParts : List String → List String → Int
  | [], ys => comparePrePartsNil ys
  | x :: xs, ys =>
    let d := comparePrePart x (ys.headD "")
    if d ≠ 0 then d else comparePreParts xs ys.tail

/-- Model of `semver.Version.Compare`: major, minor, patch segment-wise, then
the empty/non-empty prerelease cases, then `comparePrerelease`. -/
def SemVer.compare (v o : SemVer) : Int :=
  if v.major < o.major then -1
  else if v.major > o.major then 1
  else if v.minor < o.minor then -1
  else if v.minor > o.minor then 1
  else if v.patch < o.patch then -1
  else if v.patch > o.patch then 1
  else if v.pre = "" ∧ o.pre = "" then 0
  else if v.pre = "" then 1
  else if o.pre = "" then -1
  else comparePreParts
    ((splitOnChar '.' v.pre.data).map String.mk)
    ((splitOnChar '.' o.pre.data).map String.mk)

/-- Model of `semver.Version.LessThan`. -/
def SemVer.lessThan (v o : SemVer) : Bool := v.compare o < 0

/-- Model of `semver.Version.String()`: `major.minor.patch`, `-pre` when the
prerelease is non-empty, `+metadata` when the metadata is non-empty. -/
def SemVer.toKeyString (v : SemVer) : String :=
  toString v.major ++ "." ++ toString v.minor ++ "." ++ toString v.patch
    ++ (if v.pre ≠ "" then "-" ++ v.pre else "")
    ++ (if v.metadata ≠ "" then "+" ++ v.metadata else "")

/-! ## `pkg/types`: update classification and image data -/

/-- Model of `types.UpdateType` (`pkg/types`, `part_003`): the five string
constants become constructors. -/
inductive UpdateType where
  | major
  | minor
  | patch
  | unknown
  | none
deriving DecidableEq, Repr

/-- Model of `types.DockerImage`. -/
structure DockerImage where
  registry : String
  repository : String
  tag : String
  digest : String := ""
  serviceName : String := ""
  composeFile : String := ""
  containerID : String := ""
  containerName : String := ""
deriving DecidableEq, Repr

/-- Model of `DockerImage.String()` (named `str` because `String` is taken by
the Lean core type): `repository:tag` when the registry is `docker.io`,
otherwise `registry/repository:tag`. -/
def DockerImage.str (d : DockerImage) : String :=
  if d.registry = "docker.io" then d.repository ++ ":" ++ d.tag
  else d.registry ++ "/" ++ d.repository ++ ":" ++ d.tag

/-! ## `pkg/utils/version.go`: the version comparator -/

/-- The `preReleasePatterns` list of `version.go`. -/
def preReleasePatterns : List String :=
  ["alpha", "beta", "rc", "dev", "devel", "development",
   "nightly", "snapshot", "test", "experimental", "canary",
   "pre", "preview", "unstable"]

/-- The `suffixes` list of `ExtractVersionSuffix`. -/
def knownSuffixes : List String :=
  ["-alpine", "-slim", "-scratch", "-ubuntu", "-debian",
   "-bullseye", "-buster", "-focal", "-jammy",
   "-musl", "-glibc", "-bookworm", "-noble"]

/-- Whether the regex `QuoteMeta(sfx)[0-9\.\-]*$` matches `cs` at position 0:
`cs` starts with `sfx` and everything after it is in the class `[0-9.-]`. -/
def suffixMatchAt (cs : List Char) (sfx : List Char) : Bool :=
  sfx.isPrefixOf cs && (cs.drop sfx.length).all isSuffixTailChar

/-- Model of `regexp.MatchString` for the unanchored-start pattern
`(?i)QuoteMeta(sfx)[0-9\.\-]*$` against an (already lower-cased) string:
some position carries a match reaching the end of the string. -/
def suffixPatternMatches (sfx : String) (s : String) : Bool :=
  (List.range (s.length + 1)).any (fun i => suffixMatchAt (s.data.drop i) sfx.data)

/-- Model of `ExtractVersionSuffix`: lower-case the tag, then keep the longest
(in list order, strictly-longer-wins) known suffix whose pattern matches. -/
def ExtractVersionSuffix (version : String) : String :=
  let lower := goToLower version
  knownSuffixes.foldl
    (fun best sfx =>
      if suffixPatternMatches sfx lower && sfx.length > best.length then sfx else best)
    ""

/-- Starting position of the leftmost match of `(?i)QuoteMeta(sfx)[0-9\.\-]*$`
in `s` (matching case-insensitively, as the `(?i)` flag does): the least
position where the suffix pattern matches through to the end. -/
def firstSuffixMatchPos (sfx : String) (s : String) : Option Nat :=
  (List.range (s.length + 1)).find?
    (fun i => suffixMatchAt ((goToLower s).data.drop i) sfx.data)

/-- Model of `NormalizeVersion`: trim a leading `v`, then, when a known suffix
is extracted, delete the (unique, end-anchored) match of
`(?i)QuoteMeta(suffix)[0-9\.\-]*$` — i.e. keep only the part before the
leftmost such match, exactly what `ReplaceAllString(_, "")` does for an
`$`-anchored pattern. -/
def NormalizeVersion (version : String) : String :=
  let normalized := goTrimPrefixV version
  let sfx := ExtractVersionSuffix normalized
  if sfx = "" then normalized
  else
    match firstSuffixMatchPos sfx normalized with
    | some i => String.mk (normalized.data.take i)
    | none => normalized

/-- Model of `twoPartSemverRegex.MatchString`: full match of `^v?\d+\.\d+$`. -/
def twoPartSemverMatch (s : String) : Bool :=
  let cs := match s.data with
    | 'v' :: rest => rest
    | cs0 => cs0
  let sp := cs.span isDigitChar
  !sp.1.isEmpty &&
    match sp.2 with
    | '.' :: r =>
      let sp2 := r.span isDigitChar
      !sp2.1.isEmpty && sp2.2.isEmpty
    | _ => false

/-- Model of `onePartSemverRegex.MatchString`: full match of `^v?\d+$`. -/
def onePartSemverMatch (s : String) : Bool :=
  let cs := match s.data with
    | 'v' :: rest => rest
    | cs0 => cs0
  let sp := cs.span isDigitChar
  !sp.1.isEmpty && sp.2.isEmpty

/-- Model of `semverRegex.MatchString`: prefix match of
`^v?(\d+)\.(\d+)\.(\d+)` (the pattern is not `$`-anchored). -/
def semverPrefixMatch (s : String) : Bool :=
  let cs := match s.data with
    | 'v' :: rest => rest
    | cs0 => cs0
  let sp1 := cs.span isDigitChar
  !sp1.1.isEmpty &&
    match sp1.2 with
    | '.' :: r1 =>
      let sp2 := r1.span isDigitChar
      !sp2.1.isEmpty &&
        match sp2.2 with
        | '.' :: r2 =>
          let sp3 := r2.span isDigitChar
          !sp3.1.isEmpty
        | _ => false
    | _ => false

/-- Model of `parseFlexibleSemver`: normalize, try `semver.NewVersion`, then
pad `.0` / `.0.0` for Docker-style two-part or one-part numeric tags. -/
def parseFlexibleSemver (version : String) : Option SemVer :=
  let normalized := NormalizeVersion version
  match newVersion normalized with
  | some sv => some sv
  | none =>
    if twoPartSemverMatch normalized then newVersion (normalized ++ ".0")
    else if onePartSemverMatch normalized then newVersion (normalized ++ ".0.0")
    else none

/-- Model of the regex `-[a-zA-Z]\.` (unanchored `MatchString`). -/
def matchDashAlphaDot (s : String) : Bool :=
  (List.range s.length).any (fun i =>
    match s.data.drop i with
    | '-' :: c :: '.' :: _ => isAsciiLetter c
    | _ => false)

/-- Model of the regex `-[a-zA-Z]\d*` (unanchored `MatchString`; `\d*` can be
empty, so this is just a dash followed by a letter). -/
def matchDashAlphaDigits (s : String) : Bool :=
  (List.range s.length).any (fun i =>
    match s.data.drop i with
    | '-' :: c :: _ => isAsciiLetter c
    | _ => false)

/-- Model of `IsPreRelease`. -/
def IsPreRelease (version : String) : Bool :=
  let lower := goToLower version
  if lower = "latest" || lower = "stable" then false
  else if goContains lower "-alpha" || goContains lower "-beta" ||
      goContains lower "-rc" || goContains lower "-dev" ||
      goContains lower "-devel" || goContains lower "-development" ||
      goContains lower "-pre" || goContains lower "-preview" ||
      goContains lower "-unstable" then true
  else if matchDashAlphaDot lower then true
  else
    preReleasePatterns.any (fun pat =>
      goContains lower pat &&
      !(pat = "test" && lower = "latest") &&
      (if pat.length = 1 then matchDashAlphaDigits lower else true))

/-- Model of `IsSemanticVersion`. -/
def IsSemanticVersion (version : String) : Bool :=
  let n := NormalizeVersion version
  semverPrefixMatch n || twoPartSemverMatch n || onePartSemverMatch n

/-- Model of `FilterPreReleases` (order-preserving filter). -/
def FilterPreReleases (tags : List String) : List String :=
  tags.filter (fun tag => !IsPreRelease tag)

/-! ### The exchange sort used by `sortSemanticVersions`/`sortStringVersions`

Both sort helpers run the same nested swap loop

```
for i := 0; i < len(a)-1; i++ {
    for j := i + 1; j < len(a); j++ {
        if lt(a[i], a[j]) { a[i], a[j] = a[j], a[i] }
    }
}
```

Functionally, the inner loop scans the elements after position `i`, swapping
the running element at `i` with any strictly "larger" one (`innerPass`), which
leaves the maximum at position `i`; the outer loop then continues on the
remaining positions (`exchangeSort`). -/

/-- One inner-loop pass: scan `cs` with running element `x`; whenever
`lt x y`, the positions swap (position `j` receives the old `x`, and `y`
becomes the running element).  Returns the final running element (what ends up
at position `i`) and the updated remainder of the array. -/
def innerPass (lt : α → α → Bool) (x : α) : List α → α × List α
  | [] => (x, [])
  | y :: ys =>
    if lt x y then
      let p := innerPass lt y ys
      (p.1, x :: p.2)
    else
      let p := innerPass lt x ys
      (p.1, y :: p.2)

theorem innerPass_snd_length (lt : α → α → Bool) (x : α) (cs : List α) :
    (innerPass lt x cs).2.length = cs.length := by
  induction cs generalizing x with
  | nil => simp [innerPass]
  | cons y ys ih =>
    simp only [innerPass]
    by_cases h : lt x y = true
    · simp [h, ih]
    · simp [h, ih]

/-- The outer loop, with an explicit iteration budget.  `innerPass` preserves
length, so a budget equal to the list length always reaches the empty list;
the fuel only makes the structural recursion explicit. -/
def exchangeSortAux (lt : α → α → Bool) : Nat → List α → List α
  | 0, l => l
  | fuel + 1, l =>
    match l with
    | [] => []
    | x :: xs =>
      let p := innerPass lt x xs
      p.1 :: exchangeSortAux lt fuel p.2

/-- The full nested loop. -/
def exchangeSort (lt : α → α → Bool) (l : List α) : List α :=
  exchangeSortAux lt l.length l

/-- Model of `sortSemanticVersions`: pair each flexibly-parseable tag with its
parsed version (tags that fail to parse are silently skipped), exchange-sort
descending by `semver.LessThan`, and project the original tags back out. -/
def sortSemanticVersions (versions : List String) : List String :=
  if versions.length ≤ 1 then versions
  else
    let pairs := versions.filterMap
      (fun v => (parseFlexibleSemver v).map (fun sv => (v, sv)))
    (exchangeSort (fun a b : String × SemVer => a.2.lessThan b.2) pairs).map Prod.fst

/-- Model of `sortStringVersions`: exchange-sort descending by Go `<`. -/
def sortStringVersions (versions : List String) : List String :=
  if versions.length ≤ 1 then versions
  else exchangeSort (fun a b : String => charListLt a.data b.data) versions

/-- Model of `SortVersions`: split off the early return, partition by
`IsSemanticVersion` (preserving order), sort each group, concatenate
semantic-first. -/
def SortVersions (versions : List String) : List String :=
  if versions.length ≤ 1 then versions
  else
    let semantic := versions.filter (fun v => IsSemanticVersion v)
    let nonSemantic := versions.filter (fun v => !IsSemanticVersion v)
    sortSemanticVersions semantic ++ sortStringVersions nonSemantic

/-- Model of `GetLatestVersion`. -/
def GetLatestVersion (versions : List String) : String :=
  if versions.isEmpty then ""
  else
    match SortVersions versions with
    | s :: _ => s
    | [] => ""

/-! ### `CompareVersions` -/

/-- Model of `compareSemantic`. -/
def compareSemantic (currentVersion newVersion : String) : UpdateType :=
  match parseFlexibleSemver currentVersion, parseFlexibleSemver newVersion with
  | some currentSemver, some newSemver =>
    let comparison := newSemver.compare currentSemver
    if comparison ≤ 0 then .none
    else if newSemver.major > currentSemver.major then .major
    else if newSemver.minor > currentSemver.minor then .minor
    else if newSemver.patch > currentSemver.patch then .patch
    else .patch
  | _, _ => .unknown

/-- Model of `compareString`. -/
def compareString (currentVersion newVersion : String) : UpdateType :=
  if currentVersion = newVersion then .none
  else if goStrGt newVersion currentVersion then .unknown
  else .none

/-- Model of `CompareVersions`. -/
def CompareVersions (currentVersion newVersion : String) : UpdateType :=
  match compareSemantic currentVersion newVersion with
  | .unknown => compareString currentVersion newVersion
  | updateType => updateType

/-! ### `FindBestUpdateTag` -/

/-- The `group` record of `FindBestUpdateTag`: a parsed version together with
the original tags that normalize to it. -/
structure VGroup where
  sem : SemVer
  tags : List String
deriving DecidableEq, Repr

/-- Insert a tag into the group map, modelled as an association list in first
insertion order.  The Go code keys the map by `sv.String()`; since `String()`
renders a parsed version injectively (`major.minor.patch-pre+meta`, with `+`
excluded from prerelease identifiers), keying by the `SemVer` value itself is
equivalent. -/
def addToGroups (gs : List VGroup) (sv : SemVer) (t : String) : List VGroup :=
  match gs with
  | [] => [{ sem := sv, tags := [t] }]
  | g :: rest =>
    if g.sem = sv then { sem := g.sem, tags := g.tags ++ [t] } :: rest
    else g :: addToGroups rest sv t

/-- One iteration of the group-building loop of `FindBestUpdateTag`:
non-semver tags are skipped; the others are collected per normalized
version. -/
def groupStep (gs : List VGroup) (t : String) : List VGroup :=
  match parseFlexibleSemver t with
  | Option.none => gs
  | some sv => addToGroups gs sv t

/-- The group-building loop of `FindBestUpdateTag`.  Go map iteration order is
unspecified; the model fixes first-insertion order. -/
def buildGroups (tags : List String) : List VGroup :=
  tags.foldl groupStep []

/-- One iteration of the best-group selection loop: skip groups not strictly
greater than the current version, otherwise keep the running maximum by
`semver.LessThan`. -/
def selStep (currSv : SemVer) (best : Option VGroup) (g : VGroup) : Option VGroup :=
  if g.sem.compare currSv ≤ 0 then best
  else
    match best with
    | Option.none => some g
    | some b => if b.sem.lessThan g.sem then some g else best

/-- The best-group selection loop of `FindBestUpdateTag`. -/
def selectBestGroup (currSv : SemVer) (gs : List VGroup) : Option VGroup :=
  gs.foldl (selStep currSv) Option.none

/-- The tag choice inside the best group: prefer a tag matching the current
version's suffix pattern, else a tag with no extractable suffix, else the
first tag of the group. -/
def pickFromGroup (suffix : String) (gtags : List String) : String :=
  let bySuffix :=
    if suffix ≠ "" then
      gtags.find? (fun t => suffixPatternMatches suffix (goToLower t))
    else Option.none
  match bySuffix with
  | some t => t
  | Option.none =>
    match gtags.find? (fun t => ExtractVersionSuffix t = "") with
    | some t => t
    | Option.none => gtags.headD ""

/-- Model of `FindBestUpdateTag`. -/
def FindBestUpdateTag (currentVersion : String) (tags : List String) : String :=
  if tags.isEmpty then ""
  else
    let groups := buildGroups tags
    match parseFlexibleSemver currentVersion with
    | Option.none =>
      match SortVersions tags with
      | s :: _ => s
      | [] => ""
    | some currSv =>
      match selectBestGroup currSv groups with
      | Option.none => ""
      | some best => pickFromGroup (ExtractVersionSuffix currentVersion) best.tags

/-! ## `internal/cache`: the registry cache -/

/-- Model of `types.ImageInfo`. -/
structure ImageInfo where
  tags : List String
  lastModified : Int := 0
  size : Int := 0
  architecture : String := ""
deriving DecidableEq, Repr

/-- Model of `cache.CacheEntry`; `Timestamp` is the `time.Now()` instant at
which the entry was stored. -/
structure CacheEntry where
  tags : List String
  imageInfo : Option ImageInfo
  timestamp : Int
  ttl : Int
deriving DecidableEq, Repr

/-- Model of `CacheEntry.IsExpired`: `time.Since(Timestamp) > TTL`, with the
current instant passed explicitly. -/
def CacheEntry.IsExpired (e : CacheEntry) (now : Int) : Bool :=
  now - e.timestamp > e.ttl

/-- Model of `cache.CacheStats`. -/
structure CacheStats where
  hits : Int
  misses : Int
  evicted : Int
  size : Int
deriving DecidableEq, Repr

/-- Model of `CacheStats.HitRate` (`float64` arithmetic modelled over `ℚ`):
`hits / (hits + misses) * 100`, and `0` when there has been no traffic. -/
def CacheStats.HitRate (s : CacheStats) : ℚ :=
  let total : Int := s.hits + s.misses
  if total = 0 then 0
  else (s.hits : ℚ) / (total : ℚ) * 100

/-- Model of `cache.RegistryCache`: the `sync.Map` is modelled as an
association list from keys to entries, and the atomic counters as plain
fields.  The background cleanup goroutine is not part of any claim and is not
modelled. -/
structure RegistryCache where
  entries : List (String × CacheEntry)
  defaultTTL : Int
  stats : CacheStats
deriving DecidableEq, Repr

/-- Model of `RegistryCache.makeKey`. -/
def makeKey (image : DockerImage) (operation : String) : String :=
  image.registry ++ "/" ++ image.repository ++ ":" ++ image.tag ++ "#" ++ operation

/-- `sync.Map.Load`. -/
def lookupEntry (entries : List (String × CacheEntry)) (key : String) : Option CacheEntry :=
  match entries.find? (fun p => p.1 = key) with
  | some p => some p.2
  | Option.none => Option.none

/-- `sync.Map.Delete`. -/
def deleteEntry (entries : List (String × CacheEntry)) (key : String) :
    List (String × CacheEntry) :=
  entries.filter (fun p => p.1 ≠ key)

/-- `sync.Map.Store` on a key already present (replace in place). -/
def storeEntry (entries : List (String × CacheEntry)) (key : String) (e : CacheEntry) :
    List (String × CacheEntry) :=
  entries.map (fun p => if p.1 = key then (key, e) else p)

/-- Model of `RegistryCache.GetTags`: on a live entry, a hit returning the
stored payload; on an expired entry, lazy eviction (delete, bump `Evicted`,
drop `Size`) followed by the shared miss path; on a missing entry, a miss. -/
def RegistryCache.GetTags (c : RegistryCache) (image : DockerImage) (now : Int) :
    Option (List String) × RegistryCache :=
  let key := makeKey image "tags"
  match lookupEntry c.entries key with
  | some entry =>
    if !entry.IsExpired now then
      (some entry.tags,
       { c with stats := { c.stats with hits := c.stats.hits + 1 } })
    else
      (Option.none,
       { c with
         entries := deleteEntry c.entries key,
         stats := { c.stats with
                    evicted := c.stats.evicted + 1,
                    size := c.stats.size - 1,
                    misses := c.stats.misses + 1 } })
  | Option.none =>
    (Option.none,
     { c with stats := { c.stats with misses := c.stats.misses + 1 } })

/-- Model of `RegistryCache.SetTagsWithTTL`: store a fresh entry holding a
copy of the tags (value semantics make the copy implicit); `Size` grows only
when the key was absent (`LoadOrStore` then `Store`). -/
def RegistryCache.SetTagsWithTTL (c : RegistryCache) (image : DockerImage)
    (tags : List String) (ttl : Int) (now : Int) : RegistryCache :=
  let key := makeKey image "tags"
  let entry : CacheEntry :=
    { tags := tags, imageInfo := Option.none, timestamp := now, ttl := ttl }
  match lookupEntry c.entries key with
  | Option.none =>
    { c with
      entries := c.entries ++ [(key, entry)],
      stats := { c.stats with size := c.stats.size + 1 } }
  | some _ => { c with entries := storeEntry c.entries key entry }

/-- Model of `RegistryCache.SetTags` (default TTL). -/
def RegistryCache.SetTags (c : RegistryCache) (image : DockerImage)
    (tags : List String) (now : Int) : RegistryCache :=
  c.SetTagsWithTTL image tags c.defaultTTL now

/-- Model of `RegistryCache.GetImageInfo` (same shape as `GetTags` on the
`"info"` key). -/
def RegistryCache.GetImageInfo (c : RegistryCache) (image : DockerImage) (now : Int) :
    Option (Option ImageInfo) × RegistryCache :=
  let key := makeKey image "info"
  match lookupEntry c.entries key with
  | some entry =>
    if !entry.IsExpired now then
      (some entry.imageInfo,
       { c with stats := { c.stats with hits := c.stats.hits + 1 } })
    else
      (Option.none,
       { c with
         entries := deleteEntry c.entries key,
         stats := { c.stats with
                    evicted := c.stats.evicted + 1,
                    size := c.stats.size - 1,
                    misses := c.stats.misses + 1 } })
  | Option.none =>
    (Option.none,
     { c with stats := { c.stats with misses := c.stats.misses + 1 } })

/-- Model of `RegistryCache.SetImageInfoWithTTL`. -/
def RegistryCache.SetImageInfoWithTTL (c : RegistryCache) (image : DockerImage)
    (info : Option ImageInfo) (ttl : Int) (now : Int) : RegistryCache :=
  let key := makeKey image "info"
  let entry : CacheEntry :=
    { tags := [], imageInfo := info, timestamp := now, ttl := ttl }
  match lookupEntry c.entries key with
  | Option.none =>
    { c with
      entries := c.entries ++ [(key, entry)],
      stats := { c.stats with size := c.stats.size + 1 } }
  | some _ => { c with entries := storeEntry c.entries key entry }

/-- Model of `RegistryCache.SetImageInfo` (default TTL). -/
def RegistryCache.SetImageInfo (c : RegistryCache) (image : DockerImage)
    (info : Option ImageInfo) (now : Int) : RegistryCache :=
  c.SetImageInfoWithTTL image info c.defaultTTL now

/-- Model of `RegistryCache.Clear`, preserving the order of effects in the
code: delete every entry, `StoreInt64(&Size, 0)`, then
`AddInt64(&Evicted, LoadInt64(&Size))` — the load happens after the store, so
the added quantity is the just-zeroed size. -/
def RegistryCache.Clear (c : RegistryCache) : RegistryCache :=
  let c1 := { c with entries := [] }
  let c2 := { c1 with stats := { c1.stats with size := 0 } }
  { c2 with stats := { c2.stats with evicted := c2.stats.evicted + c2.stats.size } }

/-- Model of `RegistryCache.Stats` (an atomic snapshot of the counters). -/
def RegistryCache.Stats (c : RegistryCache) : CacheStats := c.stats

/-! ### `CachedRegistryClient` -/

/-- State threaded through a `CachedRegistryClient`: the cache plus the number
of times the wrapped registry client has been invoked (the "counting stub" of
the spec's test). -/
structure CachedState where
  cache : RegistryCache
  delegateCalls : Nat
deriving DecidableEq, Repr

/-- Model of `CachedRegistryClient.GetLatestTags` for a deterministic wrapped
client whose answer is `resp`: consult the cache first; on a miss, delegate
(counting the call); cache the tags only on success and propagate errors
without caching. -/
def CachedRegistryClient.GetLatestTags (resp : Except String (List String))
    (st : CachedState) (image : DockerImage) (now : Int) :
    Except String (List String) × CachedState :=
  match st.cache.GetTags image now with
  | (some tags, cache') => (.ok tags, { st with cache := cache' })
  | (Option.none, cache') =>
    let calls := st.delegateCalls + 1
    match resp with
    | .error e => (.error e, { cache := cache', delegateCalls := calls })
    | .ok tags =>
      (.ok tags, { cache := cache'.SetTags image tags now, delegateCalls := calls })

/-- `N` repeated `GetLatestTags` calls for the same image, at the given
sequence of instants. -/
def repeatedGetLatestTags (resp : Except String (List String))
    (image : DockerImage) : CachedState → List Int → CachedState
  | st, [] => st
  | st, t :: ts =>
    repeatedGetLatestTags resp image
      (CachedRegistryClient.GetLatestTags resp st image t).2 ts

/-! ## `internal/scanner/scanner.go`: the scan orchestrator -/

/-- A registry-query capability as the scanner sees it: an identity plus a
deterministic tag-listing operation (the `ctx` parameter of the Go interface
carries only cancellation, which is outside the claims modelled here). -/
structure RegistryClient where
  name : String
  getLatestTags : DockerImage → Except String (List String)

/-- Model of `Service.canHandleRegistry`: the lower-cased `switch` on the
client name, with the docker.io/empty-registry and ghcr aliases. -/
def canHandleRegistry (client : RegistryClient) (registry : String) : Bool :=
  let clientName := goToLower client.name
  let registryName := goToLower registry
  if clientName = "docker.io" || clientName = "dockerhub" then
    registryName = "docker.io" || registryName = ""
  else if clientName = "ghcr.io" || clientName = "ghcr" then
    registryName = "ghcr.io"
  else clientName = registryName

/-- Model of `types.ImageUpdate` (the fields `checkImageForUpdates` leaves at
their zero value are defaulted). -/
structure ImageUpdate where
  serviceName : String
  serviceDirectory : String := ""
  currentImage : DockerImage
  latestImage : DockerImage
  updateType : UpdateType
  updatedAt : Int := 0
deriving DecidableEq, Repr

/-- The three terminal outcomes a task can reach, one per result channel. -/
inductive ScanOutcome where
  | update (u : ImageUpdate)
  | upToDate (service : String)
  | failed (message : String)
deriving DecidableEq, Repr

/-- Model of `Service.checkImageForUpdates`, returning the single outcome the
task sends on one of the three channels.  The value `Option.none` models the
one way the code can fail to produce an outcome: `sortedTags[0]` panics when
`SortVersions` returns an empty slice (possible when every remaining tag looks
semantic to `IsSemanticVersion` but fails flexible parsing). -/
def checkImageForUpdates (registries : List RegistryClient)
    (serviceKey : String) (image : DockerImage) : Option ScanOutcome :=
  let serviceName := String.mk ((splitOnChar ':' serviceKey.data).headD [])
  match registries.find? (fun reg => canHandleRegistry reg image.registry) with
  | Option.none =>
    some (.failed ("no registry client available for " ++ image.str ++
      " (registry: " ++ image.registry ++ ")"))
  | some client =>
    match client.getLatestTags image with
    | .error e => some (.failed ("getting tags for " ++ image.str ++ ": " ++ e))
    | .ok tags =>
      if tags.isEmpty then some (.failed ("no tags found for " ++ image.str))
      else
        let filtered := FilterPreReleases tags
        let stableTags := if filtered.isEmpty then tags else filtered
        match SortVersions stableTags with
        | [] => Option.none
        | latestTag :: _ =>
          match CompareVersions image.tag latestTag with
          | .none => some (.upToDate serviceName)
          | updateType =>
            some (.update
              { serviceName := serviceName,
                currentImage := image,
                latestImage :=
                  { registry := image.registry,
                    repository := image.repository,
                    tag := latestTag },
                updateType := updateType })

/-- Model of `Service.checkForUpdates` for a batch that runs to completion
without parent cancellation.  The concurrent fan-out/fan-in is modelled
deterministically in task order (the spec makes outcome order irrelevant);
each task contributes its single outcome to exactly one of the three result
partitions.  A task panic (see `checkImageForUpdates`) crashes the whole
process in Go, modelled by `Option.none` for the batch. -/
def batchStep (registries : List RegistryClient)
    (acc : Option (List ImageUpdate × List String × List String))
    (p : String × DockerImage) :
    Option (List ImageUpdate × List String × List String) :=
  match acc with
  | Option.none => Option.none
  | some (u, d, e) =>
    match checkImageForUpdates registries p.1 p.2 with
    | Option.none => Option.none
    | some (.update x) => some (u ++ [x], d, e)
    | some (.upToDate s) => some (u, d ++ [s], e)
    | some (.failed m) => some (u, d, e ++ [m])

def checkForUpdates (registries : List RegistryClient)
    (images : List (String × DockerImage)) :
    Option (List ImageUpdate × List String × List String) :=
  if images.isEmpty then some ([], [], [])
  else images.foldl (batchStep registries) (some ([], [], []))

/-! ## Helper lemmas

### The Go string order -/

theorem charListLt_irrefl (u : List Char) : charListLt u u = false := by
  induction u with
  | nil => rfl
  | cons a as ih => simp [charListLt, ih]

theorem charListLt_asymm (u v : List Char) :
    charListLt u v = true → charListLt v u = false := by
  induction u generalizing v with
  | nil =>
    intro h
    cases v with
    | nil => simp [charListLt] at h
    | cons b bs => simp [charListLt]
  | cons a as ih =>
    intro h
    cases v with
    | nil => simp [charListLt] at h
    | cons b bs =>
      simp only [charListLt] at h ⊢
      by_cases hab : a < b
      · have hba : ¬ b < a := lt_asymm hab
        simp [hab, hba]
      · by_cases hba : b < a
        · simp [hab, hba] at h
        · simp only [hab, hba, if_false] at h ⊢
          exact ih bs h

theorem charListLt_cotrans (u w v : List Char) :
    charListLt u w = true → charListLt u v = true ∨ charListLt v w = true := by
  induction u generalizing v w with
  | nil =>
    intro h
    cases w with
    | nil => simp [charListLt] at h
    | cons c cs =>
      cases v with
      | nil => right; simp [charListLt]
      | cons b bs => left; simp [charListLt]
  | cons a as ih =>
    intro h
    cases w with
    | nil => simp [charListLt] at h
    | cons c cs =>
      cases v with
      | nil => right; simp [charListLt]
      | cons b bs =>
        simp only [charListLt] at h ⊢
        by_cases hab : a < b
        · left; simp [hab]
        · by_cases hbc : b < c
          · right; simp [hbc]
          · -- b ≤ a and c ≤ b
            by_cases hba : b < a
            · -- a and c : from h either a < c or heads tie
              by_cases hac : a < c
              · exact absurd (lt_trans hba hac) hbc
              · by_cases hca : c < a
                · simp [hac, hca] at h
                · -- ¬ a < c, ¬ c < a, so a ~ c; but b < a and ¬ b < c
                  exact absurd (lt_of_lt_of_le hba (le_of_not_lt hca)) hbc
            · -- heads of u,v tie
              by_cases hac : a < c
              · right
                have hbc2 : b < c := lt_of_le_of_lt (le_of_not_lt hab) hac
                simp [hbc2]
              · by_cases hca : c < a
                · simp [hac, hca] at h
                · simp only [hac, hca, if_false] at h
                  have hcb : ¬ c < b :=
                    fun hh => hca (lt_of_lt_of_le hh (le_of_not_lt hab))
                  simp only [hab, hba, hbc, hcb, if_false]
                  exact ih cs bs h

/-! ### The nested swap loop -/

theorem innerPass_perm (lt : α → α → Bool) (x : α) (cs : List α) :
    List.Perm ((innerPass lt x cs).1 :: (innerPass lt x cs).2) (x :: cs) := by
  induction cs generalizing x with
  | nil => simp [innerPass]
  | cons y ys ih =>
    cases hxy : lt x y with
    | true =>
      simp only [innerPass, hxy, if_true]
      exact (List.Perm.swap x _ _).trans ((ih y).cons x)
    | false =>
      simp only [innerPass, hxy, Bool.false_eq_true, if_false]
      exact ((List.Perm.swap y _ _).trans ((ih x).cons y)).trans (List.Perm.swap x y ys)

theorem exchangeSortAux_perm (lt : α → α → Bool) :
    ∀ (fuel : Nat) (l : List α), List.Perm (exchangeSortAux lt fuel l) l := by
  intro fuel
  induction fuel with
  | zero => intro l; exact List.Perm.refl l
  | succ n ih =>
    intro l
    cases l with
    | nil => simp [exchangeSortAux]
    | cons x xs =>
      simp only [exchangeSortAux]
      exact ((ih _).cons _).trans (innerPass_perm lt x xs)

theorem exchangeSort_perm (lt : α → α → Bool) (l : List α) :
    List.Perm (exchangeSort lt l) l :=
  exchangeSortAux_perm lt l.length l

theorem innerPass_max {α : Type _} (lt : α → α → Bool) (le : α → α → Prop)
    (hrefl : ∀ a, le a a) (htrans : ∀ a b c, le a b → le b c → le a c)
    (h1 : ∀ a b, lt a b = true → le a b) (h2 : ∀ a b, lt a b = false → le b a) :
    ∀ (cs : List α) (x : α), le x (innerPass lt x cs).1 ∧
      ∀ y ∈ (innerPass lt x cs).2, le y (innerPass lt x cs).1 := by
  intro cs
  induction cs with
  | nil => intro x; exact ⟨hrefl x, by simp [innerPass]⟩
  | cons y ys ih =>
    intro x
    cases hxy : lt x y with
    | true =>
      simp only [innerPass, hxy, if_true]
      obtain ⟨hmax, hall⟩ := ih y
      refine ⟨htrans _ _ _ (h1 _ _ hxy) hmax, ?_⟩
      intro z hz
      rcases List.mem_cons.mp hz with rfl | hz'
      · exact htrans _ _ _ (h1 _ _ hxy) hmax
      · exact hall z hz'
    | false =>
      simp only [innerPass, hxy, Bool.false_eq_true, if_false]
      obtain ⟨hmax, hall⟩ := ih x
      refine ⟨hmax, ?_⟩
      intro z hz
      rcases List.mem_cons.mp hz with rfl | hz'
      · exact htrans _ _ _ (h2 _ _ hxy) hmax
      · exact hall z hz'

theorem exchangeSortAux_pairwise {α : Type _} (lt : α → α → Bool) (le : α → α → Prop)
    (hrefl : ∀ a, le a a) (htrans : ∀ a b c, le a b → le b c → le a c)
    (h1 : ∀ a b, lt a b = true → le a b) (h2 : ∀ a b, lt a b = false → le b a) :
    ∀ (fuel : Nat) (l : List α), l.length ≤ fuel →
      List.Pairwise (fun a b => le b a) (exchangeSortAux lt fuel l) := by
  intro fuel
  induction fuel with
  | zero =>
    intro l hl
    have : l = [] := List.eq_nil_of_length_eq_zero (Nat.le_zero.mp hl)
    subst this
    simp [exchangeSortAux]
  | succ n ih =>
    intro l hl
    cases l with
    | nil => simp [exchangeSortAux]
    | cons x xs =>
      simp only [exchangeSortAux]
      have hlen : (innerPass lt x xs).2.length ≤ n := by
        rw [innerPass_snd_length]
        simpa using Nat.succ_le_succ_iff.mp hl
      refine List.pairwise_cons.mpr ⟨?_, ih _ hlen⟩
      intro b hb
      have hb' : b ∈ (innerPass lt x xs).2 :=
        (exchangeSortAux_perm lt n _).mem_iff.mp hb
      exact (innerPass_max lt le hrefl htrans h1 h2 xs x).2 b hb'

theorem exchangeSort_pairwise {α : Type _} (lt : α → α → Bool) (le : α → α → Prop)
    (hrefl : ∀ a, le a a) (htrans : ∀ a b c, le a b → le b c → le a c)
    (h1 : ∀ a b, lt a b = true → le a b) (h2 : ∀ a b, lt a b = false → le b a)
    (l : List α) : List.Pairwise (fun a b => le b a) (exchangeSort lt l) :=
  exchangeSortAux_pairwise lt le hrefl htrans h1 h2 l.length l le_rfl

/-! ### Sign of `SemVer.compare` versus the numeric components -/

/-- The (major, minor, patch) triple of a parsed version. -/
def tripleOf (v : SemVer) : Nat × Nat × Nat := (v.major, v.minor, v.patch)

/-- Non-strict lexicographic order on (major, minor, patch) triples. -/
def tripleLe (a b : Nat × Nat × Nat) : Prop :=
  a.1 < b.1 ∨ (a.1 = b.1 ∧ (a.2.1 < b.2.1 ∨ (a.2.1 = b.2.1 ∧ a.2.2 ≤ b.2.2)))

theorem tripleLe_refl (a : Nat × Nat × Nat) : tripleLe a a := by
  simp [tripleLe]

theorem tripleLe_trans {a b c : Nat × Nat × Nat} :
    tripleLe a b → tripleLe b c → tripleLe a c := by
  simp only [tripleLe]
  omega

theorem tripleLe_total (a b : Nat × Nat × Nat) : tripleLe a b ∨ tripleLe b a := by
  simp only [tripleLe]
  omega

theorem compare_neg_tripleLe {v o : SemVer} (h : v.compare o < 0) :
    tripleLe (tripleOf v) (tripleOf o) := by
  simp only [SemVer.compare] at h
  split_ifs at h <;> simp_all [tripleLe, tripleOf] <;> omega

theorem compare_nonneg_tripleLe {v o : SemVer} (h : ¬ v.compare o < 0) :
    tripleLe (tripleOf o) (tripleOf v) := by
  simp only [SemVer.compare] at h
  split_ifs at h <;> simp_all [tripleLe, tripleOf] <;> omega

theorem compare_pos_tripleLe {v o : SemVer} (h : 0 < v.compare o) :
    tripleLe (tripleOf o) (tripleOf v) := by
  apply compare_nonneg_tripleLe
  omega

theorem compare_pos_major_le {v o : SemVer} (h : 0 < o.compare v) :
    v.major ≤ o.major := by
  have h' := compare_pos_tripleLe h
  simp only [tripleOf, tripleLe] at h'
  omega

theorem compare_pos_minor_le {v o : SemVer} (h : 0 < o.compare v)
    (hm : v.major = o.major) : v.minor ≤ o.minor := by
  have h' := compare_pos_tripleLe h
  simp only [tripleOf, tripleLe] at h'
  omega

/-! ## Claim C10: `Clear` -/

/-- C10: `Clear` removes all entries and sets the size statistic to zero while
leaving the hit, miss and eviction counters exactly as they were before the
call; in particular the eviction counter is not incremented by the removed
entries (the code zeroes `Size` before loading it into `Evicted`, so the
added amount is always zero). -/
theorem clear_spec (c : RegistryCache) :
    c.Clear.entries = [] ∧
    c.Clear.Stats.size = 0 ∧
    c.Clear.Stats.hits = c.Stats.hits ∧
    c.Clear.Stats.misses = c.Stats.misses ∧
    c.Clear.Stats.evicted = c.Stats.evicted := by
  simp [RegistryCache.Clear, RegistryCache.Stats]

/-! ## Claim C7: `HitRate` -/

/-- C7 counterexample: with one hit and one miss the code returns `50`
(a percentage), not `hits/(hits+misses) = 1/2` as the claim states. -/
theorem hitRate_counterexample :
    CacheStats.HitRate { hits := 1, misses := 1, evicted := 0, size := 0 } ≠
      1 / (1 + 1) := by
  norm_num [CacheStats.HitRate]

/-- C7 (amended): `HitRate` is the percentage `100 * hits / (hits + misses)`,
and `0` when there is no traffic; stated on the `Stats()` snapshot. -/
theorem hitRate_spec (c : RegistryCache) :
    (c.Stats.hits + c.Stats.misses = 0 → c.Stats.HitRate = 0) ∧
    (c.Stats.hits + c.Stats.misses ≠ 0 →
      c.Stats.HitRate * ((c.Stats.hits : ℚ) + (c.Stats.misses : ℚ)) =
        100 * (c.Stats.hits : ℚ)) := by
  constructor
  · intro h
    simp [CacheStats.HitRate, h]
  · intro h
    have hq : ((c.Stats.hits : ℚ) + (c.Stats.misses : ℚ)) ≠ 0 := by
      intro hq
      apply h
      have : ((c.Stats.hits + c.Stats.misses : Int) : ℚ) = 0 := by push_cast; linarith
      exact_mod_cast this
    simp only [CacheStats.HitRate, h, if_false, if_neg h]
    push_cast
    field_simp
    ring

/-- C7 witness: the amended statement evaluated at a cache with counters
(1 hit, 1 miss) and at a cache with no traffic. -/
theorem hitRate_spec_witness :
    CacheStats.HitRate { hits := 0, misses := 0, evicted := 0, size := 0 } = 0 ∧
    CacheStats.HitRate { hits := 1, misses := 1, evicted := 0, size := 0 } *
      ((1 : ℚ) + (1 : ℚ)) = 100 * (1 : ℚ) := by
  have h0 := (hitRate_spec (RegistryCache.mk [] 0 (CacheStats.mk 0 0 0 0))).1 (by decide)
  have h1 := (hitRate_spec (RegistryCache.mk [] 0 (CacheStats.mk 1 1 0 0))).2 (by decide)
  simp only [RegistryCache.Stats] at h0 h1
  exact ⟨h0, by exact_mod_cast h1⟩

/-! ## Claim C2: idempotency of `NormalizeVersion` -/

/-- C2 counterexample: `NormalizeVersion` is not idempotent.
`NormalizeVersion "vv" = "v"` (one leading `v` is trimmed), and a second
application trims the remaining `v`, giving `""`. -/
theorem normalize_not_idempotent :
    NormalizeVersion (NormalizeVersion "vv") ≠ NormalizeVersion "vv" := by
  decide

/-- A string that is a fixed point of `v`-trimming and has no extractable
suffix is a fixed point of `NormalizeVersion`. -/
theorem normalize_fixed (s : String) (h1 : goTrimPrefixV s = s)
    (h2 : ExtractVersionSuffix s = "") : NormalizeVersion s = s := by
  unfold NormalizeVersion
  rw [h1]
  simp [h2]

/-- C2 (amended): `NormalizeVersion` is idempotent on every tag whose
normalized form no longer starts with a trimmable `v` and no longer matches a
known suffix pattern.  In general a second application can strip one more
leading `v` (see the counterexample) or a newly exposed suffix, so
unrestricted idempotency fails. -/
theorem normalizeVersion_idem (t : String)
    (h1 : goTrimPrefixV (NormalizeVersion t) = NormalizeVersion t)
    (h2 : ExtractVersionSuffix (NormalizeVersion t) = "") :
    NormalizeVersion (NormalizeVersion t) = NormalizeVersion t :=
  normalize_fixed (NormalizeVersion t) h1 h2

/-- C2 witness: the amended statement at `"v1.2.3-alpine"`, whose normalized
form `"1.2.3"` satisfies both side conditions. -/
theorem normalizeVersion_idem_witness :
    goTrimPrefixV (NormalizeVersion "v1.2.3-alpine") = NormalizeVersion "v1.2.3-alpine" ∧
    ExtractVersionSuffix (NormalizeVersion "v1.2.3-alpine") = "" ∧
    NormalizeVersion (NormalizeVersion "v1.2.3-alpine") = NormalizeVersion "v1.2.3-alpine" :=
  ⟨by decide, by decide, normalizeVersion_idem "v1.2.3-alpine" (by decide) (by decide)⟩

/-! ## Claim C1: `CompareVersions` -/

/-- C1 counterexample: for `current = "1.0.0-alpha"` and
`candidate = "1.0.0"` both sides parse with all three numeric components
equal (the candidate is greater only by prerelease precedence), yet
`CompareVersions` returns `patch`, not `none` as the claim requires when all
three components are equal. -/
theorem compareVersions_counterexample :
    CompareVersions "1.0.0-alpha" "1.0.0" = UpdateType.patch ∧
    (parseFlexibleSemver "1.0.0-alpha").map tripleOf = some (1, 0, 0) ∧
    (parseFlexibleSemver "1.0.0").map tripleOf = some (1, 0, 0) ∧
    UpdateType.patch ≠ UpdateType.none := by
  refine ⟨by decide, by decide, by decide, by decide⟩

/-- C1 (amended): `CompareVersions` never throws and always returns a
classification (it is a total function by construction).  If either side
fails flexible-semver parsing it falls back to plain string comparison
(`candidate > current` byte-wise ⇒ `unknown`, equality or `candidate <
current` ⇒ `none`).  If both sides parse: a candidate not greater than the
current version (by full semver precedence, prerelease included) yields
`none`; otherwise the first differing, higher numeric component determines
`major`/`minor`, and in all remaining cases — a higher patch component, or
all three numeric components equal with the candidate greater only by
prerelease/metadata precedence — the result is `patch`. -/
theorem compareVersions_spec (current cand : String) :
    (((parseFlexibleSemver current).isNone ∨ (parseFlexibleSemver cand).isNone) →
      CompareVersions current cand =
        (if current = cand then UpdateType.none
         else if goStrGt cand current then UpdateType.unknown
         else UpdateType.none)) ∧
    (∀ vc vn, parseFlexibleSemver current = some vc → parseFlexibleSemver cand = some vn →
      ((vn.compare vc ≤ 0 → CompareVersions current cand = UpdateType.none) ∧
       (0 < vn.compare vc → vc.major < vn.major →
          CompareVersions current cand = UpdateType.major) ∧
       (0 < vn.compare vc → vc.major = vn.major → vc.minor < vn.minor →
          CompareVersions current cand = UpdateType.minor) ∧
       (0 < vn.compare vc → vc.major = vn.major → vc.minor = vn.minor →
          CompareVersions current cand = UpdateType.patch) ∧
       (0 < vn.compare vc →
          vc.major ≤ vn.major ∧ (vc.major = vn.major → vc.minor ≤ vn.minor)))) := by
  constructor
  · intro h
    unfold CompareVersions compareSemantic
    rcases h with h | h <;>
      rcases hc : parseFlexibleSemver current with _ | vc <;>
      rcases hn : parseFlexibleSemver cand with _ | vn <;>
      simp_all [compareString]
  · intro vc vn hc hn
    have hsem : compareSemantic current cand =
        (if vn.compare vc ≤ 0 then UpdateType.none
         else if vn.major > vc.major then UpdateType.major
         else if vn.minor > vc.minor then UpdateType.minor
         else if vn.patch > vc.patch then UpdateType.patch
         else UpdateType.patch) := by
      unfold compareSemantic
      rw [hc, hn]
    refine ⟨?_, ?_, ?_, ?_, ?_⟩
    · intro hle
      unfold CompareVersions
      rw [hsem]
      simp [hle]
    · intro hpos hmaj
      unfold CompareVersions
      rw [hsem]
      have : ¬ vn.compare vc ≤ 0 := by omega
      simp [this, hmaj]
    · intro hpos hmaj hmin
      unfold CompareVersions
      rw [hsem]
      have h0 : ¬ vn.compare vc ≤ 0 := by omega
      have h1 : ¬ vc.major < vn.major := by omega
      simp [h0, h1, hmin]
    · intro hpos hmaj hmin
      unfold CompareVersions
      rw [hsem]
      have h0 : ¬ vn.compare vc ≤ 0 := by omega
      have h1 : ¬ vc.major < vn.major := by omega
      have h2 : ¬ vc.minor < vn.minor := by omega
      by_cases h3 : vc.patch < vn.patch <;> simp [h0, h1, h2, h3]
    · intro hpos
      exact ⟨compare_pos_major_le hpos, fun hm => compare_pos_minor_le hpos hm⟩

/-- C1 witness: the amended statement applied on both branches — the
semantic branch at `("1.0.0", "2.0.0")` (a major update) and the string
fallback branch at `("latest", "stable")` (`unknown`). -/
theorem compareVersions_spec_witness :
    CompareVersions "1.0.0" "2.0.0" = UpdateType.major ∧
    CompareVersions "latest" "stable" = UpdateType.unknown := by
  constructor
  · have h := (compareVersions_spec "1.0.0" "2.0.0").2
      { major := 1, minor := 0, patch := 0, pre := "", metadata := "" }
      { major := 2, minor := 0, patch := 0, pre := "", metadata := "" }
      (by decide) (by decide)
    exact h.2.1 (by decide) (by decide)
  · have h := (compareVersions_spec "latest" "stable").1 (by decide)
    rw [h]
    decide

/-! ## Claim C5: cache reads -/

theorem lookupEntry_append_self (l : List (String × CacheEntry)) (key : String)
    (e : CacheEntry) (h : lookupEntry l key = Option.none) :
    lookupEntry (l ++ [(key, e)]) key = some e := by
  induction l with
  | nil => simp [lookupEntry, List.find?]
  | cons q l ih =>
    simp only [lookupEntry, List.find?] at h ⊢
    cases hq : decide (q.1 = key) with
    | true => simp [hq] at h
    | false =>
      simp only [hq] at h ⊢
      exact ih h

theorem lookupEntry_store_self (l : List (String × CacheEntry)) (key : String)
    (e : CacheEntry) (h : lookupEntry l key ≠ Option.none) :
    lookupEntry (storeEntry l key e) key = some e := by
  induction l with
  | nil => simp [lookupEntry, List.find?] at h
  | cons q l ih =>
    simp only [lookupEntry, List.find?, storeEntry, List.map] at h ⊢
    by_cases hq : q.1 = key
    · simp [hq]
    · simp only [hq, if_false, decide_eq_true_eq] at h ⊢
      simp only [storeEntry, lookupEntry] at ih
      exact ih h

/-- After `SetTagsWithTTL`, the `"tags"` entry for the image is the freshly
stored one. -/
theorem lookupEntry_after_setTags (c : RegistryCache) (image : DockerImage)
    (tags : List String) (ttl now : Int) :
    lookupEntry (c.SetTagsWithTTL image tags ttl now).entries (makeKey image "tags") =
      some { tags := tags, imageInfo := Option.none, timestamp := now, ttl := ttl } := by
  unfold RegistryCache.SetTagsWithTTL
  cases hl : lookupEntry c.entries (makeKey image "tags") with
  | none =>
    simp only [hl]
    exact lookupEntry_append_self _ _ _ hl
  | some e0 =>
    simp only [hl]
    exact lookupEntry_store_self _ _ _ (by simp [hl])

/-- `SetTagsWithTTL` leaves the untouched fields of the cache unchanged. -/
theorem setTags_preserves (c : RegistryCache) (image : DockerImage)
    (tags : List String) (ttl now : Int) :
    (c.SetTagsWithTTL image tags ttl now).defaultTTL = c.defaultTTL ∧
    (c.SetTagsWithTTL image tags ttl now).stats.hits = c.stats.hits ∧
    (c.SetTagsWithTTL image tags ttl now).stats.misses = c.stats.misses ∧
    (c.SetTagsWithTTL image tags ttl now).stats.evicted = c.stats.evicted := by
  unfold RegistryCache.SetTagsWithTTL
  cases hl : lookupEntry c.entries (makeKey image "tags") <;> simp [hl]

/-- C5: a cache read behaves as specified.  On the `"tags"` key: a missing
entry is a miss bumping only the miss counter; a present-but-expired entry
(`now - fetchedAt > ttl`) is deleted, bumps the eviction and miss counters and
decrements the size; a live entry is a hit bumping only the hit counter and
returning the stored payload — in particular, immediately after
`SetTagsWithTTL` a non-expired read returns exactly the tags that were set
(the payload is copied at store time; with the value semantics of the model
the defensive copy is value equality).  The `GetImageInfo` read obeys the same
three cases on the `"info"` key. -/
theorem cache_read_spec (c : RegistryCache) (image : DockerImage) (now : Int) :
    (lookupEntry c.entries (makeKey image "tags") = Option.none →
      c.GetTags image now =
        (Option.none,
         { c with stats := { c.stats with misses := c.stats.misses + 1 } })) ∧
    (∀ e, lookupEntry c.entries (makeKey image "tags") = some e →
      e.IsExpired now = true →
      c.GetTags image now =
        (Option.none,
         { c with
           entries := deleteEntry c.entries (makeKey image "tags"),
           stats := { hits := c.stats.hits, misses := c.stats.misses + 1,
                      evicted := c.stats.evicted + 1, size := c.stats.size - 1 } })) ∧
    (∀ e, lookupEntry c.entries (makeKey image "tags") = some e →
      e.IsExpired now = false →
      c.GetTags image now =
        (some e.tags,
         { c with stats := { c.stats with hits := c.stats.hits + 1 } })) ∧
    (∀ tags ttl t1, t1 - now ≤ ttl →
      ((c.SetTagsWithTTL image tags ttl now).GetTags image t1).1 = some tags) ∧
    (lookupEntry c.entries (makeKey image "info") = Option.none →
      c.GetImageInfo image now =
        (Option.none,
         { c with stats := { c.stats with misses := c.stats.misses + 1 } })) ∧
    (∀ e, lookupEntry c.entries (makeKey image "info") = some e →
      e.IsExpired now = true →
      c.GetImageInfo image now =
        (Option.none,
         { c with
           entries := deleteEntry c.entries (makeKey image "info"),
           stats := { hits := c.stats.hits, misses := c.stats.misses + 1,
                      evicted := c.stats.evicted + 1, size := c.stats.size - 1 } })) ∧
    (∀ e, lookupEntry c.entries (makeKey image "info") = some e →
      e.IsExpired now = false →
      c.GetImageInfo image now =
        (some e.imageInfo,
         { c with stats := { c.stats with hits := c.stats.hits + 1 } })) := by
  refine ⟨?_, ?_, ?_, ?_, ?_, ?_, ?_⟩
  · intro h
    unfold RegistryCache.GetTags
    simp [h]
  · intro e he hexp
    unfold RegistryCache.GetTags
    simp [he, hexp]
  · intro e he hexp
    unfold RegistryCache.GetTags
    simp [he, hexp]
  · intro tags ttl t1 hfresh
    have hexp : CacheEntry.IsExpired
        { tags := tags, imageInfo := Option.none, timestamp := now, ttl := ttl } t1 = false := by
      simp only [CacheEntry.IsExpired, decide_eq_false_iff_not, not_lt]
      omega
    unfold RegistryCache.GetTags
    simp only [lookupEntry_after_setTags, hexp]
    simp
  · intro h
    unfold RegistryCache.GetImageInfo
    simp [h]
  · intro e he hexp
    unfold RegistryCache.GetImageInfo
    simp [he, hexp]
  · intro e he hexp
    unfold RegistryCache.GetImageInfo
    simp [he, hexp]

/-- C5 witness: the read cases at concrete states — a read on the empty cache
misses; a read right after `SetTagsWithTTL` (5 time units later, TTL 10) hits
with the stored tags; a read after the TTL elapsed (11 time units later)
misses, evicts the entry and bumps the counters. -/
theorem cache_read_spec_witness :
    (RegistryCache.mk [] 900 (CacheStats.mk 0 0 0 0)).GetTags
      (({ registry := "", repository := "r", tag := "1.0.0" } : DockerImage)) 0 =
      (Option.none, RegistryCache.mk [] 900 (CacheStats.mk 0 1 0 0)) ∧
    (((RegistryCache.mk [] 900 (CacheStats.mk 0 0 0 0)).SetTagsWithTTL
        (({ registry := "", repository := "r", tag := "1.0.0" } : DockerImage)) ["a", "b"] 10 100).GetTags
      (({ registry := "", repository := "r", tag := "1.0.0" } : DockerImage)) 105).1 = some ["a", "b"] ∧
    ((RegistryCache.mk
        [("/r:1.0.0#tags", CacheEntry.mk ["a", "b"] Option.none 100 10)] 900
        (CacheStats.mk 0 0 0 1)).GetTags (({ registry := "", repository := "r", tag := "1.0.0" } : DockerImage)) 111) =
      (Option.none, RegistryCache.mk [] 900 (CacheStats.mk 0 1 1 0)) := by
  refine ⟨?_, ?_, ?_⟩
  · have h := (cache_read_spec (RegistryCache.mk [] 900 (CacheStats.mk 0 0 0 0))
      (({ registry := "", repository := "r", tag := "1.0.0" } : DockerImage)) 0).1 (by decide)
    rw [h]
    rfl
  · exact (cache_read_spec (RegistryCache.mk [] 900 (CacheStats.mk 0 0 0 0))
      (({ registry := "", repository := "r", tag := "1.0.0" } : DockerImage)) 100).2.2.2.1 ["a", "b"] 10 105 (by decide)
  · have h := (cache_read_spec (RegistryCache.mk
        [("/r:1.0.0#tags", CacheEntry.mk ["a", "b"] Option.none 100 10)] 900
        (CacheStats.mk 0 0 0 1)) (({ registry := "", repository := "r", tag := "1.0.0" } : DockerImage)) 111).2.1
      (CacheEntry.mk ["a", "b"] Option.none 100 10) (by decide) (by decide)
    rw [h]
    decide

/-! ## Claim C6: `CachedRegistryClient.GetLatestTags` -/

/-- On a hit, `GetTags` returns the stored payload and changes only the hit
counter (in particular the entry set is untouched). -/
theorem getTags_hit_state (c : RegistryCache) (image : DockerImage) (now : Int)
    (e : CacheEntry) (he : lookupEntry c.entries (makeKey image "tags") = some e)
    (hfresh : e.IsExpired now = false) :
    c.GetTags image now =
      (some e.tags, { c with stats := { c.stats with hits := c.stats.hits + 1 } }) := by
  unfold RegistryCache.GetTags
  simp [he, hfresh]

/-- On a miss with no stored entry, `GetTags` only bumps the miss counter. -/
theorem getTags_miss_state (c : RegistryCache) (image : DockerImage) (now : Int)
    (h : lookupEntry c.entries (makeKey image "tags") = Option.none) :
    c.GetTags image now =
      (Option.none, { c with stats := { c.stats with misses := c.stats.misses + 1 } }) := by
  unfold RegistryCache.GetTags
  simp [h]

/-- While a live entry for the image is present, repeated cached calls never
invoke the delegate. -/
theorem repeatedGetLatestTags_hits (resp : Except String (List String))
    (image : DockerImage) (e : CacheEntry) :
    ∀ (ts : List Int) (st : CachedState),
      lookupEntry st.cache.entries (makeKey image "tags") = some e →
      (∀ t ∈ ts, e.IsExpired t = false) →
      (repeatedGetLatestTags resp image st ts).delegateCalls = st.delegateCalls := by
  intro ts
  induction ts with
  | nil => intro st he hf; rfl
  | cons t ts ih =>
    intro st he hf
    have hstep := getTags_hit_state st.cache image t e he (hf t (by simp))
    rw [repeatedGetLatestTags]
    unfold CachedRegistryClient.GetLatestTags
    rw [hstep]
    exact ih _ he (fun t' ht' => hf t' (by simp [ht']))

/-- C6: the cached client consults the cache first (a live entry answers
without invoking the delegate); on a miss it delegates, returning a delegate
error unchanged without caching anything; consequently `N` repeated calls for
the same image within the TTL window invoke the delegate exactly once. -/
theorem cachedClient_spec (st : CachedState) (image : DockerImage) (now : Int) :
    (∀ e resp, lookupEntry st.cache.entries (makeKey image "tags") = some e →
      e.IsExpired now = false →
      CachedRegistryClient.GetLatestTags resp st image now =
        (.ok e.tags,
         { st with cache := { st.cache with
             stats := { st.cache.stats with hits := st.cache.stats.hits + 1 } } })) ∧
    (∀ msg, lookupEntry st.cache.entries (makeKey image "tags") = Option.none →
      CachedRegistryClient.GetLatestTags (.error msg) st image now =
        (.error msg,
         { cache := { st.cache with
             stats := { st.cache.stats with misses := st.cache.stats.misses + 1 } },
           delegateCalls := st.delegateCalls + 1 })) ∧
    (∀ tags ts, lookupEntry st.cache.entries (makeKey image "tags") = Option.none →
      (∀ t ∈ ts, t - now ≤ st.cache.defaultTTL) →
      (repeatedGetLatestTags (.ok tags) image st (now :: ts)).delegateCalls =
        st.delegateCalls + 1) := by
  refine ⟨?_, ?_, ?_⟩
  · intro e resp he hf
    have hstep := getTags_hit_state st.cache image now e he hf
    unfold CachedRegistryClient.GetLatestTags
    rw [hstep]
  · intro msg hmiss
    have hstep := getTags_miss_state st.cache image now hmiss
    unfold CachedRegistryClient.GetLatestTags
    rw [hstep]
  · intro tags ts hmiss hwin
    have hstep := getTags_miss_state st.cache image now hmiss
    rw [repeatedGetLatestTags]
    have h1 : (CachedRegistryClient.GetLatestTags (.ok tags) st image now).2 =
        { cache := RegistryCache.SetTags
            { st.cache with stats := { st.cache.stats with
                misses := st.cache.stats.misses + 1 } } image tags now,
          delegateCalls := st.delegateCalls + 1 } := by
      unfold CachedRegistryClient.GetLatestTags
      rw [hstep]
    rw [h1]
    have hfinal := repeatedGetLatestTags_hits (.ok tags) image
      { tags := tags, imageInfo := Option.none, timestamp := now,
        ttl := st.cache.defaultTTL } ts
      { cache := RegistryCache.SetTags
          { st.cache with stats := { st.cache.stats with
              misses := st.cache.stats.misses + 1 } } image tags now,
        delegateCalls := st.delegateCalls + 1 }
      (by
        unfold RegistryCache.SetTags
        exact lookupEntry_after_setTags _ image tags _ now)
      (by
        intro t ht
        simp only [CacheEntry.IsExpired, decide_eq_false_iff_not, not_lt]
        exact hwin t ht)
    exact hfinal

/-- C6 witness: starting from an empty cache with TTL 900, three calls at
times 100, 150 and 900 (all within the TTL window of the entry stored at time
100) invoke the delegate exactly once; a delegate error at time 0 is returned
as-is with nothing cached; a pre-existing live entry is answered from the
cache. -/
theorem cachedClient_spec_witness :
    (repeatedGetLatestTags (.ok ["a", "b"])
      ({ registry := "", repository := "r", tag := "1.0.0" } : DockerImage)
      (CachedState.mk (RegistryCache.mk [] 900 (CacheStats.mk 0 0 0 0)) 0)
      [100, 150, 900]).delegateCalls = 0 + 1 ∧
    CachedRegistryClient.GetLatestTags (.error "boom")
      (CachedState.mk (RegistryCache.mk [] 900 (CacheStats.mk 0 0 0 0)) 0)
      ({ registry := "", repository := "r", tag := "1.0.0" } : DockerImage) 0 =
      (.error "boom",
       CachedState.mk (RegistryCache.mk [] 900 (CacheStats.mk 0 1 0 0)) 1) ∧
    (CachedRegistryClient.GetLatestTags (.ok ["ignored"])
      (CachedState.mk (RegistryCache.mk
        [("/r:1.0.0#tags", CacheEntry.mk ["a"] Option.none 100 900)] 900
        (CacheStats.mk 0 0 0 1)) 0)
      ({ registry := "", repository := "r", tag := "1.0.0" } : DockerImage) 150).1 =
      .ok ["a"] := by
  refine ⟨?_, ?_, ?_⟩
  · exact (cachedClient_spec
      (CachedState.mk (RegistryCache.mk [] 900 (CacheStats.mk 0 0 0 0)) 0)
      ({ registry := "", repository := "r", tag := "1.0.0" } : DockerImage) 100).2.2
      ["a", "b"] [150, 900] (by decide) (by decide)
  · have h := (cachedClient_spec
      (CachedState.mk (RegistryCache.mk [] 900 (CacheStats.mk 0 0 0 0)) 0)
      ({ registry := "", repository := "r", tag := "1.0.0" } : DockerImage) 0).2.1
      "boom" (by decide)
    rw [h]
    rfl
  · have h := (cachedClient_spec
      (CachedState.mk (RegistryCache.mk
        [("/r:1.0.0#tags", CacheEntry.mk ["a"] Option.none 100 900)] 900
        (CacheStats.mk 0 0 0 1)) 0)
      ({ registry := "", repository := "r", tag := "1.0.0" } : DockerImage) 150).1
      (CacheEntry.mk ["a"] Option.none 100 900) (.ok ["ignored"])
      (by decide) (by decide)
    rw [h]

/-! ## Claim C3: `SortVersions` -/

/-- The (major, minor, patch) triple a tag sorts by (junk value for
unparseable tags, which only ever appears under a parseability hypothesis). -/
def semTriple (t : String) : Nat × Nat × Nat :=
  match parseFlexibleSemver t with
  | some v => tripleOf v
  | Option.none => (0, 0, 0)

/-- C3 counterexample: `SortVersions` can drop tags.  Both inputs look
semantic to `IsSemanticVersion` (the prefix regex matches `1.2.3`) but fail
flexible parsing (four numeric parts), so the semantic sort discards both and
the result is empty — the output does not contain the tags of the input. -/
theorem sortVersions_counterexample :
    SortVersions ["1.2.3.4", "5.6.7.8"] = [] ∧
    ("1.2.3.4" : String) ∈ ["1.2.3.4", "5.6.7.8"] := by
  exact ⟨by decide, by decide⟩

theorem mem_semverPairs {versions : List String} {p : String × SemVer}
    (hp : p ∈ versions.filterMap
      (fun v => (parseFlexibleSemver v).map (fun sv => (v, sv)))) :
    p.1 ∈ versions ∧ parseFlexibleSemver p.1 = some p.2 := by
  rcases List.mem_filterMap.mp hp with ⟨v, hv, hmap⟩
  rcases Option.map_eq_some'.mp hmap with ⟨sv, hsv, hpeq⟩
  subst hpeq
  exact ⟨hv, hsv⟩

theorem semverPairs_map_fst (versions : List String)
    (h : ∀ v ∈ versions, (parseFlexibleSemver v).isSome = true) :
    (versions.filterMap
      (fun v => (parseFlexibleSemver v).map (fun sv => (v, sv)))).map Prod.fst =
      versions := by
  induction versions with
  | nil => rfl
  | cons v vs ih =>
    have hv := h v (by simp)
    rcases Option.isSome_iff_exists.mp hv with ⟨sv, hsv⟩
    simp only [List.filterMap_cons, hsv, Option.map_some', List.map_cons]
    exact congrArg (List.cons v) (ih (fun u hu => h u (by simp [hu])))

theorem sortStringVersions_perm (versions : List String) :
    List.Perm (sortStringVersions versions) versions := by
  unfold sortStringVersions
  by_cases hl : versions.length ≤ 1
  · simp [hl]
  · simp only [hl, if_false]
    exact exchangeSort_perm _ versions

theorem sortSemanticVersions_perm (versions : List String)
    (h : ∀ v ∈ versions, (parseFlexibleSemver v).isSome = true) :
    List.Perm (sortSemanticVersions versions) versions := by
  unfold sortSemanticVersions
  by_cases hl : versions.length ≤ 1
  · simp [hl]
  · simp only [hl, if_false]
    have hperm := (exchangeSort_perm (fun a b : String × SemVer => a.2.lessThan b.2)
      (versions.filterMap
        (fun v => (parseFlexibleSemver v).map (fun sv => (v, sv))))).map
      Prod.fst
    rwa [semverPairs_map_fst versions h] at hperm

theorem sortStringVersions_pairwise (versions : List String) :
    List.Pairwise (fun a b => charListLt a.data b.data = false)
      (sortStringVersions versions) := by
  unfold sortStringVersions
  by_cases hl : versions.length ≤ 1
  · simp only [hl, if_true]
    cases versions with
    | nil => simp
    | cons x xs =>
      cases xs with
      | nil => simp
      | cons y ys => simp at hl
  · simp only [hl, if_false]
    exact exchangeSort_pairwise (fun a b : String => charListLt a.data b.data)
      (fun a b => charListLt b.data a.data = false)
      (fun a => charListLt_irrefl a.data)
      (fun a b c hab hbc => by
        cases hca : charListLt c.data a.data with
        | false => exact hca
        | true =>
          rcases charListLt_cotrans c.data a.data b.data hca with h | h
          · rw [hbc] at h; exact Bool.noConfusion h
          · rw [hab] at h; exact Bool.noConfusion h)
      (fun a b hab => charListLt_asymm _ _ hab)
      (fun a b hab => hab)
      versions

theorem sortSemanticVersions_pairwise (versions : List String) :
    List.Pairwise (fun a b => tripleLe (semTriple b) (semTriple a))
      (sortSemanticVersions versions) := by
  unfold sortSemanticVersions
  by_cases hl : versions.length ≤ 1
  · simp only [hl, if_true]
    cases versions with
    | nil => simp
    | cons x xs =>
      cases xs with
      | nil => simp
      | cons y ys => simp at hl
  · simp only [hl, if_false]
    have hpw := exchangeSort_pairwise
      (fun a b : String × SemVer => a.2.lessThan b.2)
      (fun a b : String × SemVer => tripleLe (tripleOf a.2) (tripleOf b.2))
      (fun a => tripleLe_refl _)
      (fun a b c hab hbc => tripleLe_trans hab hbc)
      (fun a b hab => compare_neg_tripleLe (by
        simpa [SemVer.lessThan] using hab))
      (fun a b hab => compare_nonneg_tripleLe (by
        simpa [SemVer.lessThan] using hab))
      (versions.filterMap
        (fun v => (parseFlexibleSemver v).map (fun sv => (v, sv))))
    rw [List.pairwise_map]
    refine List.Pairwise.imp_of_mem ?_ hpw
    intro p q hpmem hqmem hle
    have hsorted := exchangeSort_perm (fun a b : String × SemVer => a.2.lessThan b.2)
      (versions.filterMap
        (fun v => (parseFlexibleSemver v).map (fun sv => (v, sv))))
    have hp' := (mem_semverPairs (hsorted.mem_iff.mp hpmem)).2
    have hq' := (mem_semverPairs (hsorted.mem_iff.mp hqmem)).2
    simpa [semTriple, hp', hq'] using hle

theorem sortVersions_partition (tags : List String) :
    SortVersions tags =
      sortSemanticVersions (tags.filter (fun t => IsSemanticVersion t)) ++
      sortStringVersions (tags.filter (fun t => !IsSemanticVersion t)) := by
  unfold SortVersions
  by_cases hl : tags.length ≤ 1
  · simp only [hl, if_true]
    cases tags with
    | nil => simp [sortSemanticVersions, sortStringVersions]
    | cons x xs =>
      cases xs with
      | nil =>
        cases hx : IsSemanticVersion x <;>
          simp [hx, sortSemanticVersions, sortStringVersions]
      | cons y ys => simp at hl
  · simp [hl]

/-- C3 (amended): `SortVersions` partitions its input into semantic-looking
(per the prefix regex behind `IsSemanticVersion`) and non-semantic tags, sorts
the semantic group descending by (major, minor, patch), sorts the
non-semantic group descending byte-lexicographically, and concatenates
semantic-first.  Provided every semantic-looking tag actually parses under
flexible-semver parsing, the output contains exactly the tags of the input;
without that proviso semantic-looking but unparseable tags are dropped
whenever the input has at least two elements (see the counterexample).  On
`["1.0.0","2.0.0","1.1.0"]` the output is `["2.0.0","1.1.0","1.0.0"]`. -/
theorem sortVersions_spec (tags : List String)
    (hp : ∀ t ∈ tags, IsSemanticVersion t = true →
      (parseFlexibleSemver t).isSome = true) :
    SortVersions tags =
      sortSemanticVersions (tags.filter (fun t => IsSemanticVersion t)) ++
      sortStringVersions (tags.filter (fun t => !IsSemanticVersion t)) ∧
    List.Perm (SortVersions tags) tags ∧
    List.Pairwise (fun a b => tripleLe (semTriple b) (semTriple a))
      (sortSemanticVersions (tags.filter (fun t => IsSemanticVersion t))) ∧
    List.Pairwise (fun a b => charListLt a.data b.data = false)
      (sortStringVersions (tags.filter (fun t => !IsSemanticVersion t))) ∧
    SortVersions ["1.0.0", "2.0.0", "1.1.0"] = ["2.0.0", "1.1.0", "1.0.0"] := by
  refine ⟨sortVersions_partition tags, ?_, sortSemanticVersions_pairwise _,
    sortStringVersions_pairwise _, by decide⟩
  rw [sortVersions_partition tags]
  have hsem : List.Perm
      (sortSemanticVersions (tags.filter (fun t => IsSemanticVersion t)))
      (tags.filter (fun t => IsSemanticVersion t)) := by
    apply sortSemanticVersions_perm
    intro v hv
    exact hp v (List.mem_filter.mp hv).1 (List.mem_filter.mp hv).2
  have hnon := sortStringVersions_perm (tags.filter (fun t => !IsSemanticVersion t))
  exact (hsem.append hnon).trans (List.filter_append_perm _ tags)

/-- C3 witness: the amended statement at `["1.0.0","2.0.0","1.1.0"]` (all
parseable): the output is a permutation of the input and equals
`["2.0.0","1.1.0","1.0.0"]`. -/
theorem sortVersions_spec_witness :
    List.Perm (SortVersions ["1.0.0", "2.0.0", "1.1.0"])
      ["1.0.0", "2.0.0", "1.1.0"] ∧
    SortVersions ["1.0.0", "2.0.0", "1.1.0"] = ["2.0.0", "1.1.0", "1.0.0"] := by
  have h := sortVersions_spec ["1.0.0", "2.0.0", "1.1.0"] (by decide)
  exact ⟨h.2.1, h.2.2.2.2⟩

/-! ## Claim C4: `FindBestUpdateTag` -/

theorem mem_addToGroups_cases {gs : List VGroup} {sv : SemVer} {t : String}
    {g2 : VGroup} (h : g2 ∈ addToGroups gs sv t) :
    g2 ∈ gs ∨ ((∀ g ∈ gs, g.sem ≠ sv) ∧ g2 = { sem := sv, tags := [t] }) ∨
      ∃ g ∈ gs, g.sem = sv ∧ g2 = { sem := g.sem, tags := g.tags ++ [t] } := by
  induction gs with
  | nil =>
    simp only [addToGroups, List.mem_singleton] at h
    exact Or.inr (Or.inl ⟨by simp, h⟩)
  | cons g rest ih =>
    simp only [addToGroups] at h
    by_cases hg : g.sem = sv
    · rw [if_pos hg] at h
      rcases List.mem_cons.mp h with rfl | h'
      · exact Or.inr (Or.inr ⟨g, by simp, hg, rfl⟩)
      · exact Or.inl (List.mem_cons_of_mem _ h')
    · rw [if_neg hg] at h
      rcases List.mem_cons.mp h with rfl | h'
      · exact Or.inl (List.mem_cons_self _ _)
      · rcases ih h' with h2 | ⟨hnone, h2⟩ | ⟨g0, hg0, hsem, heq⟩
        · exact Or.inl (List.mem_cons_of_mem _ h2)
        · refine Or.inr (Or.inl ⟨?_, h2⟩)
          intro g' hg'
          rcases List.mem_cons.mp hg' with rfl | hg''
          · exact hg
          · exact hnone g' hg''
        · exact Or.inr (Or.inr ⟨g0, List.mem_cons_of_mem _ hg0, hsem, heq⟩)

theorem addToGroups_tags_origin {gs : List VGroup} {sv : SemVer} {t : String}
    {g2 : VGroup} {u : String} (h : g2 ∈ addToGroups gs sv t) (hu : u ∈ g2.tags) :
    u = t ∨ ∃ g0 ∈ gs, u ∈ g0.tags := by
  rcases mem_addToGroups_cases h with h' | ⟨_, h'⟩ | ⟨g0, hg0, _, heq⟩
  · exact Or.inr ⟨g2, h', hu⟩
  · subst h'
    simp only [List.mem_singleton] at hu
    exact Or.inl hu
  · subst heq
    simp only [List.mem_append, List.mem_singleton] at hu
    rcases hu with hu | hu
    · exact Or.inr ⟨g0, hg0, hu⟩
    · exact Or.inl hu

theorem addToGroups_sound {gs : List VGroup} {sv : SemVer} {t : String}
    (hgs : ∀ g ∈ gs, g.tags ≠ [] ∧ ∀ u ∈ g.tags, parseFlexibleSemver u = some g.sem)
    (hp : parseFlexibleSemver t = some sv) :
    ∀ g ∈ addToGroups gs sv t,
      g.tags ≠ [] ∧ ∀ u ∈ g.tags, parseFlexibleSemver u = some g.sem := by
  intro g2 h
  rcases mem_addToGroups_cases h with h' | ⟨_, h'⟩ | ⟨g0, hg0, hsem, heq⟩
  · exact hgs g2 h'
  · subst h'
    refine ⟨by simp, ?_⟩
    intro u hu
    simp only [List.mem_singleton] at hu
    subst hu
    exact hp
  · subst heq
    refine ⟨by simp, ?_⟩
    intro u hu
    simp only [List.mem_append, List.mem_singleton] at hu
    rcases hu with hu | hu
    · exact (hgs g0 hg0).2 u hu
    · subst hu
      rw [hsem]
      exact hp

theorem addToGroups_preserves {gs : List VGroup} {sv : SemVer} {t : String} :
    ∀ g ∈ gs, ∃ g2 ∈ addToGroups gs sv t, g2.sem = g.sem ∧ ∀ u ∈ g.tags, u ∈ g2.tags := by
  induction gs with
  | nil => simp
  | cons g0 rest ih =>
    intro g hg
    simp only [addToGroups]
    by_cases h0 : g0.sem = sv
    · rw [if_pos h0]
      rcases List.mem_cons.mp hg with rfl | hg'
      · exact ⟨{ sem := g.sem, tags := g.tags ++ [t] }, List.mem_cons_self _ _, rfl,
          fun u hu => by simp [hu]⟩
      · exact ⟨g, List.mem_cons_of_mem _ hg', rfl, fun u hu => hu⟩
    · rw [if_neg h0]
      rcases List.mem_cons.mp hg with rfl | hg'
      · exact ⟨g, List.mem_cons_self _ _, rfl, fun u hu => hu⟩
      · rcases ih g hg' with ⟨g2, hg2, hsem, hsub⟩
        exact ⟨g2, List.mem_cons_of_mem _ hg2, hsem, hsub⟩

theorem addToGroups_self (gs : List VGroup) (sv : SemVer) (t : String) :
    ∃ g ∈ addToGroups gs sv t, g.sem = sv ∧ t ∈ g.tags := by
  induction gs with
  | nil => exact ⟨{ sem := sv, tags := [t] }, by simp [addToGroups], rfl, by simp⟩
  | cons g0 rest ih =>
    simp only [addToGroups]
    by_cases h0 : g0.sem = sv
    · rw [if_pos h0]
      exact ⟨{ sem := g0.sem, tags := g0.tags ++ [t] }, List.mem_cons_self _ _, h0, by simp⟩
    · rw [if_neg h0]
      rcases ih with ⟨g, hg, hsem, ht⟩
      exact ⟨g, List.mem_cons_of_mem _ hg, hsem, ht⟩

theorem addToGroups_pairwise {gs : List VGroup} {sv : SemVer} {t : String}
    (h : List.Pairwise (fun a b => a.sem ≠ b.sem) gs) :
    List.Pairwise (fun a b => a.sem ≠ b.sem) (addToGroups gs sv t) := by
  induction gs with
  | nil => simp [addToGroups]
  | cons g0 rest ih =>
    obtain ⟨hhead, hrest⟩ := List.pairwise_cons.mp h
    simp only [addToGroups]
    by_cases h0 : g0.sem = sv
    · rw [if_pos h0]
      exact List.pairwise_cons.mpr ⟨fun b hb => hhead b hb, hrest⟩
    · rw [if_neg h0]
      refine List.pairwise_cons.mpr ⟨?_, ih hrest⟩
      intro b hb
      rcases mem_addToGroups_cases hb with h' | ⟨_, h'⟩ | ⟨ga, hga, hsem, heq⟩
      · exact hhead b h'
      · subst h'
        simpa using h0
      · subst heq
        simpa [hsem] using hhead ga hga

theorem addToGroups_all_with_sem {gs : List VGroup} {sv : SemVer} {t : String}
    (h : List.Pairwise (fun a b => a.sem ≠ b.sem) gs) :
    ∀ g2 ∈ addToGroups gs sv t, g2.sem = sv → t ∈ g2.tags := by
  induction gs with
  | nil =>
    intro g2 hg2 _
    simp only [addToGroups, List.mem_singleton] at hg2
    subst hg2
    simp
  | cons g0 rest ih =>
    obtain ⟨hhead, hrest⟩ := List.pairwise_cons.mp h
    intro g2 hg2 hsem2
    simp only [addToGroups] at hg2
    by_cases h0 : g0.sem = sv
    · rw [if_pos h0] at hg2
      rcases List.mem_cons.mp hg2 with rfl | hg2'
      · simp
      · exact absurd (hsem2.trans h0.symm).symm (hhead g2 hg2')
    · rw [if_neg h0] at hg2
      rcases List.mem_cons.mp hg2 with rfl | hg2'
      · exact absurd hsem2 h0
      · exact ih hrest g2 hg2' hsem2

/-- The containment invariant `W`: some group carries the version `v`, and
every group carrying `v` contains the tag `t0`. -/
def groupsContain (v : SemVer) (t0 : String) (gs : List VGroup) : Prop :=
  (∃ g ∈ gs, g.sem = v) ∧ ∀ g ∈ gs, g.sem = v → t0 ∈ g.tags

theorem addToGroups_groupsContain {v : SemVer} {t0 : String} {gs : List VGroup}
    {sv : SemVer} {t : String} (h : groupsContain v t0 gs) :
    groupsContain v t0 (addToGroups gs sv t) := by
  obtain ⟨⟨gw, hgw, hgwsem⟩, hall⟩ := h
  constructor
  · rcases addToGroups_preserves gw hgw with ⟨g2, hg2, hsem, _⟩
    exact ⟨g2, hg2, hsem.trans hgwsem⟩
  · intro g2 hg2 hsem2
    rcases mem_addToGroups_cases hg2 with h' | ⟨hnone, h'⟩ | ⟨g0, hg0, hsem0, heq⟩
    · exact hall g2 h' hsem2
    · subst h'
      exact absurd (hgwsem.trans hsem2.symm) (hnone gw hgw)
    · subst heq
      have ht0 : t0 ∈ g0.tags := hall g0 hg0 (by simpa using hsem2)
      simp [ht0]

theorem foldl_groups_sound :
    ∀ (tags : List String) (acc : List VGroup),
      (∀ g ∈ acc, g.tags ≠ [] ∧ ∀ u ∈ g.tags, parseFlexibleSemver u = some g.sem) →
      ∀ g ∈ tags.foldl groupStep acc,
        g.tags ≠ [] ∧ ∀ u ∈ g.tags, parseFlexibleSemver u = some g.sem := by
  intro tags
  induction tags with
  | nil => intro acc hacc; simpa using hacc
  | cons t ts ih =>
    intro acc hacc
    simp only [List.foldl_cons]
    apply ih
    unfold groupStep
    cases hp : parseFlexibleSemver t with
    | none => simpa using hacc
    | some sv => exact addToGroups_sound hacc hp

theorem foldl_groups_pairwise :
    ∀ (tags : List String) (acc : List VGroup),
      List.Pairwise (fun a b => a.sem ≠ b.sem) acc →
      List.Pairwise (fun a b => a.sem ≠ b.sem) (tags.foldl groupStep acc) := by
  intro tags
  induction tags with
  | nil => intro acc hacc; simpa using hacc
  | cons t ts ih =>
    intro acc hacc
    simp only [List.foldl_cons]
    apply ih
    unfold groupStep
    cases hp : parseFlexibleSemver t with
    | none => simpa using hacc
    | some sv => exact addToGroups_pairwise hacc

theorem foldl_groups_origin :
    ∀ (tags : List String) (acc : List VGroup) (g : VGroup) (u : String),
      g ∈ tags.foldl groupStep acc → u ∈ g.tags →
      u ∈ tags ∨ ∃ g0 ∈ acc, u ∈ g0.tags := by
  intro tags
  induction tags with
  | nil =>
    intro acc g u hg hu
    exact Or.inr ⟨g, by simpa using hg, hu⟩
  | cons t ts ih =>
    intro acc g u hg hu
    simp only [List.foldl_cons] at hg
    rcases ih _ g u hg hu with h | ⟨g0, hg0, hu0⟩
    · exact Or.inl (List.mem_cons_of_mem _ h)
    · unfold groupStep at hg0
      cases hp : parseFlexibleSemver t with
      | none =>
        rw [hp] at hg0
        exact Or.inr ⟨g0, hg0, hu0⟩
      | some sv =>
        rw [hp] at hg0
        rcases addToGroups_tags_origin hg0 hu0 with rfl | ⟨g1, hg1, hu1⟩
        · exact Or.inl (List.mem_cons_self _ _)
        · exact Or.inr ⟨g1, hg1, hu1⟩

theorem foldl_groups_contain :
    ∀ (tags : List String) (acc : List VGroup) (v : SemVer) (t0 : String),
      groupsContain v t0 acc →
      groupsContain v t0 (tags.foldl groupStep acc) := by
  intro tags
  induction tags with
  | nil => intro acc v t0 h; simpa using h
  | cons t ts ih =>
    intro acc v t0 h
    simp only [List.foldl_cons]
    apply ih
    unfold groupStep
    cases hp : parseFlexibleSemver t with
    | none => simpa using h
    | some sv => exact addToGroups_groupsContain h

theorem foldl_groups_complete :
    ∀ (tags : List String) (acc : List VGroup) (t0 : String) (v : SemVer),
      t0 ∈ tags → parseFlexibleSemver t0 = some v →
      List.Pairwise (fun a b => a.sem ≠ b.sem) acc →
      groupsContain v t0 (tags.foldl groupStep acc) := by
  intro tags
  induction tags with
  | nil => intro acc t0 v h; simp at h
  | cons t ts ih =>
    intro acc t0 v hmem hp hacc
    simp only [List.foldl_cons]
    rcases List.mem_cons.mp hmem with rfl | hmem'
    · -- `t0` is processed now: establish the invariant, then preserve it
      apply foldl_groups_contain
      unfold groupStep
      rw [hp]
      exact ⟨addToGroups_self acc v t0 |>.imp (fun g hg => ⟨hg.1, hg.2.1⟩),
        addToGroups_all_with_sem hacc⟩
    · -- `t0` comes later: keep the pairwise invariant through this step
      apply ih _ t0 v hmem' hp
      unfold groupStep
      cases hq : parseFlexibleSemver t with
      | none => simpa using hacc
      | some sv => exact addToGroups_pairwise hacc

theorem buildGroups_sound (tags : List String) :
    ∀ g ∈ buildGroups tags,
      g.tags ≠ [] ∧ ∀ u ∈ g.tags, parseFlexibleSemver u = some g.sem :=
  foldl_groups_sound tags [] (by simp)

theorem buildGroups_origin (tags : List String) {g : VGroup} {u : String}
    (hg : g ∈ buildGroups tags) (hu : u ∈ g.tags) : u ∈ tags := by
  rcases foldl_groups_origin tags [] g u hg hu with h | ⟨g0, hg0, _⟩
  · exact h
  · simp at hg0

theorem buildGroups_complete (tags : List String) {t0 : String} {v : SemVer}
    (hmem : t0 ∈ tags) (hp : parseFlexibleSemver t0 = some v) :
    groupsContain v t0 (buildGroups tags) :=
  foldl_groups_complete tags [] t0 v hmem hp (by simp)

/-! ### The best-group selection loop -/

theorem selectBest_aux (cv : SemVer) :
    ∀ (gs : List VGroup) (acc : Option VGroup),
      (∀ b0, acc = some b0 → 0 < b0.sem.compare cv) →
      ((gs.foldl (selStep cv) acc = Option.none →
          acc = Option.none ∧ ∀ g ∈ gs, g.sem.compare cv ≤ 0) ∧
       (∀ b, gs.foldl (selStep cv) acc = some b →
          (acc = some b ∨ b ∈ gs) ∧ 0 < b.sem.compare cv ∧
          (∀ b0, acc = some b0 → tripleLe (tripleOf b0.sem) (tripleOf b.sem)) ∧
          (∀ g ∈ gs, 0 < g.sem.compare cv →
            tripleLe (tripleOf g.sem) (tripleOf b.sem)))) := by
  intro gs
  induction gs with
  | nil =>
    intro acc hacc
    refine ⟨fun h => ⟨by simpa using h, by simp⟩, ?_⟩
    intro b hb
    simp only [List.foldl_nil] at hb
    exact ⟨Or.inl hb, hacc b hb, fun b0 hb0 => by
      rw [hb0] at hb
      cases hb
      exact tripleLe_refl _, by simp⟩
  | cons g gs ih =>
    intro acc hacc
    simp only [List.foldl_cons]
    by_cases hle : g.sem.compare cv ≤ 0
    · have hstep : selStep cv acc g = acc := by
        unfold selStep
        rw [if_pos hle]
      rw [hstep]
      obtain ⟨ihn, ihs⟩ := ih acc hacc
      refine ⟨?_, ?_⟩
      · intro h
        obtain ⟨h1, h2⟩ := ihn h
        refine ⟨h1, ?_⟩
        intro g' hg'
        rcases List.mem_cons.mp hg' with rfl | hg''
        · exact hle
        · exact h2 g' hg''
      · intro b hb
        obtain ⟨h1, h2, h3, h4⟩ := ihs b hb
        refine ⟨?_, h2, h3, ?_⟩
        · rcases h1 with h1 | h1
          · exact Or.inl h1
          · exact Or.inr (List.mem_cons_of_mem _ h1)
        · intro g' hg' hg'pos
          rcases List.mem_cons.mp hg' with rfl | hg''
          · omega
          · exact h4 g' hg'' hg'pos
    · have hgpos : 0 < g.sem.compare cv := by omega
      cases hc : acc with
      | none =>
        have hstep : selStep cv Option.none g = some g := by
          unfold selStep
          rw [if_neg hle]
        subst hc
        rw [hstep]
        obtain ⟨ihn, ihs⟩ := ih (some g) (by
          intro b0 hb0
          cases hb0
          exact hgpos)
        refine ⟨?_, ?_⟩
        · intro h
          obtain ⟨h1, _⟩ := ihn h
          cases h1
        · intro b hb
          obtain ⟨h1, h2, h3, h4⟩ := ihs b hb
          have hgb : tripleLe (tripleOf g.sem) (tripleOf b.sem) := h3 g rfl
          refine ⟨?_, h2, ?_, ?_⟩
          · rcases h1 with h1 | h1
            · cases h1
              exact Or.inr (List.mem_cons_self _ _)
            · exact Or.inr (List.mem_cons_of_mem _ h1)
          · intro b0 hb0
            cases hb0
          · intro g' hg' hg'pos
            rcases List.mem_cons.mp hg' with rfl | hg''
            · exact hgb
            · exact h4 g' hg'' hg'pos
      | some b0 =>
        have hb0pos : 0 < b0.sem.compare cv := hacc b0 hc
        subst hc
        by_cases hlt : b0.sem.lessThan g.sem = true
        · have hstep : selStep cv (some b0) g = some g := by
            unfold selStep
            rw [if_neg hle]
            simp [hlt]
          rw [hstep]
          have hb0g : tripleLe (tripleOf b0.sem) (tripleOf g.sem) :=
            compare_neg_tripleLe (by simpa [SemVer.lessThan] using hlt)
          obtain ⟨ihn, ihs⟩ := ih (some g) (by
            intro b1 hb1
            cases hb1
            exact hgpos)
          refine ⟨?_, ?_⟩
          · intro h
            obtain ⟨h1, _⟩ := ihn h
            cases h1
          · intro b hb
            obtain ⟨h1, h2, h3, h4⟩ := ihs b hb
            have hgb : tripleLe (tripleOf g.sem) (tripleOf b.sem) := h3 g rfl
            refine ⟨?_, h2, ?_, ?_⟩
            · rcases h1 with h1 | h1
              · cases h1
                exact Or.inr (List.mem_cons_self _ _)
              · exact Or.inr (List.mem_cons_of_mem _ h1)
            · intro b1 hb1
              cases hb1
              exact tripleLe_trans hb0g hgb
            · intro g' hg' hg'pos
              rcases List.mem_cons.mp hg' with rfl | hg''
              · exact hgb
              · exact h4 g' hg'' hg'pos
        · have hstep : selStep cv (some b0) g = some b0 := by
            unfold selStep
            rw [if_neg hle]
            simp [hlt]
          rw [hstep]
          have hgb0 : tripleLe (tripleOf g.sem) (tripleOf b0.sem) :=
            compare_nonneg_tripleLe (by
              intro hcon
              exact hlt (by simpa [SemVer.lessThan] using hcon))
          obtain ⟨ihn, ihs⟩ := ih (some b0) (by
            intro b1 hb1
            cases hb1
            exact hb0pos)
          refine ⟨?_, ?_⟩
          · intro h
            obtain ⟨h1, _⟩ := ihn h
            cases h1
          · intro b hb
            obtain ⟨h1, h2, h3, h4⟩ := ihs b hb
            have hb0b : tripleLe (tripleOf b0.sem) (tripleOf b.sem) := h3 b0 rfl
            refine ⟨?_, h2, ?_, ?_⟩
            · rcases h1 with h1 | h1
              · exact Or.inl h1
              · exact Or.inr (List.mem_cons_of_mem _ h1)
            · intro b1 hb1
              cases hb1
              exact hb0b
            · intro g' hg' hg'pos
              rcases List.mem_cons.mp hg' with rfl | hg''
              · exact tripleLe_trans hgb0 hb0b
              · exact h4 g' hg'' hg'pos

theorem selectBestGroup_none {cv : SemVer} {gs : List VGroup}
    (h : selectBestGroup cv gs = Option.none) :
    ∀ g ∈ gs, g.sem.compare cv ≤ 0 :=
  ((selectBest_aux cv gs Option.none (by simp)).1 h).2

theorem selectBestGroup_some {cv : SemVer} {gs : List VGroup} {b : VGroup}
    (h : selectBestGroup cv gs = some b) :
    b ∈ gs ∧ 0 < b.sem.compare cv ∧
      ∀ g ∈ gs, 0 < g.sem.compare cv →
        tripleLe (tripleOf g.sem) (tripleOf b.sem) := by
  obtain ⟨h1, h2, _, h4⟩ := (selectBest_aux cv gs Option.none (by simp)).2 b h
  rcases h1 with h1 | h1
  · cases h1
  · exact ⟨h1, h2, h4⟩

theorem pickFromGroup_mem (suffix : String) (gtags : List String)
    (h : gtags ≠ []) : pickFromGroup suffix gtags ∈ gtags := by
  unfold pickFromGroup
  by_cases hs : suffix ≠ ""
  · rw [if_pos hs]
    cases hf : gtags.find? (fun t => suffixPatternMatches suffix (goToLower t)) with
    | some t =>
      simpa using List.mem_of_find?_eq_some hf
    | none =>
      simp only
      cases hf2 : gtags.find? (fun t => ExtractVersionSuffix t = "") with
      | some t => simpa using List.mem_of_find?_eq_some hf2
      | none =>
        simp only
        cases gtags with
        | nil => exact absurd rfl h
        | cons x xs => simp [List.headD]
  · rw [if_neg hs]
    simp only
    cases hf2 : gtags.find? (fun t => ExtractVersionSuffix t = "") with
    | some t => simpa using List.mem_of_find?_eq_some hf2
    | none =>
      simp only
      cases gtags with
      | nil => exact absurd rfl h
      | cons x xs => simp [List.headD]

theorem pickFromGroup_suffix (suffix : String) (gtags : List String)
    (hs : suffix ≠ "")
    (h : ∃ t ∈ gtags, suffixPatternMatches suffix (goToLower t) = true) :
    suffixPatternMatches suffix (goToLower (pickFromGroup suffix gtags)) = true := by
  unfold pickFromGroup
  rw [if_pos hs]
  have hfind : (gtags.find? (fun t => suffixPatternMatches suffix (goToLower t))).isSome := by
    rw [List.find?_isSome]
    exact h
  rcases Option.isSome_iff_exists.mp hfind with ⟨t, ht⟩
  rw [ht]
  show suffixPatternMatches suffix (goToLower t) = true
  simpa using List.find?_some ht

set_option maxHeartbeats 2000000 in
/-- C4: `FindBestUpdateTag` as specified.  Conjuncts: (1) the spec scenario —
`current = "2.32.0-alpine"` with candidates `["2.33.2-alpine","2.33.2"]`
returns `"2.33.2-alpine"` and the pair classifies as `minor`; (2) when the
current tag fails to parse, the head of `SortVersions(candidates)` (or `""`)
is returned; (3) when the current tag parses and a non-empty result is
returned, that result is one of the candidates, its parsed version is
strictly greater than the current version, the (major,minor,patch) triple of
the result is maximal among strictly-greater candidates, and when the current
tag has a suffix and the result's version group contains a suffix-matching
candidate, a suffix-matching tag is returned; (4) whenever some candidate
parses strictly greater than the current version, the result is non-empty. -/
theorem findBestUpdateTag_spec :
    (FindBestUpdateTag "2.32.0-alpine" ["2.33.2-alpine", "2.33.2"] = "2.33.2-alpine" ∧
     CompareVersions "2.32.0-alpine" "2.33.2-alpine" = UpdateType.minor) ∧
    (∀ current tags, tags ≠ [] → parseFlexibleSemver current = Option.none →
      FindBestUpdateTag current tags = (SortVersions tags).headD "") ∧
    (∀ current tags cv, parseFlexibleSemver current = some cv →
      FindBestUpdateTag current tags ≠ "" →
      FindBestUpdateTag current tags ∈ tags ∧
      ∃ rv, parseFlexibleSemver (FindBestUpdateTag current tags) = some rv ∧
        0 < rv.compare cv ∧
        (∀ t ∈ tags, ∀ v, parseFlexibleSemver t = some v → 0 < v.compare cv →
          tripleLe (tripleOf v) (tripleOf rv)) ∧
        (ExtractVersionSuffix current ≠ "" →
          (∃ t ∈ tags, parseFlexibleSemver t = some rv ∧
            suffixPatternMatches (ExtractVersionSuffix current) (goToLower t) = true) →
          suffixPatternMatches (ExtractVersionSuffix current)
            (goToLower (FindBestUpdateTag current tags)) = true)) ∧
    (∀ current tags cv, parseFlexibleSemver current = some cv →
      (∃ t ∈ tags, ∃ v, parseFlexibleSemver t = some v ∧ 0 < v.compare cv) →
      FindBestUpdateTag current tags ≠ "") := by
  refine ⟨⟨by decide, by decide⟩, ?_, ?_, ?_⟩
  · intro current tags hne hp
    unfold FindBestUpdateTag
    rw [if_neg (by simpa using hne), hp]
    cases SortVersions tags <;> simp
  · intro current tags cv hp hres
    rcases hempty : tags.isEmpty with _ | _
    case true =>
      exfalso
      apply hres
      unfold FindBestUpdateTag
      rw [if_pos hempty]
    case false =>
      have hform : FindBestUpdateTag current tags =
          (match selectBestGroup cv (buildGroups tags) with
           | Option.none => ""
           | some best =>
             pickFromGroup (ExtractVersionSuffix current) best.tags) := by
        unfold FindBestUpdateTag
        rw [if_neg (by simp [hempty]), hp]
      cases hsel : selectBestGroup cv (buildGroups tags) with
      | none =>
        exfalso
        apply hres
        simp only [hsel] at hform
        exact hform
      | some best =>
        simp only [hsel] at hform
        rw [hform]
        obtain ⟨hbestmem, hbestpos, hbestmax⟩ := selectBestGroup_some hsel
        obtain ⟨hbne, hbsound⟩ := buildGroups_sound tags best hbestmem
        have hpick := pickFromGroup_mem (ExtractVersionSuffix current) best.tags hbne
        refine ⟨buildGroups_origin tags hbestmem hpick, best.sem,
          hbsound _ hpick, hbestpos, ?_, ?_⟩
        · intro t ht v hv hvpos
          obtain ⟨⟨g, hg, hgsem⟩, _⟩ := buildGroups_complete tags ht hv
          have := hbestmax g hg (by rw [hgsem]; exact hvpos)
          rwa [hgsem] at this
        · intro hsfx ⟨t, ht, htparse, htmatch⟩
          apply pickFromGroup_suffix _ _ hsfx
          obtain ⟨_, hall⟩ := buildGroups_complete tags ht htparse
          exact ⟨t, hall best hbestmem rfl, htmatch⟩
  · intro current tags cv hp ⟨t, ht, v, hv, hvpos⟩
    have hne : tags.isEmpty = false := by
      cases tags with
      | nil => simp at ht
      | cons x xs => rfl
    have hform : FindBestUpdateTag current tags =
        (match selectBestGroup cv (buildGroups tags) with
         | Option.none => ""
         | some best =>
           pickFromGroup (ExtractVersionSuffix current) best.tags) := by
      unfold FindBestUpdateTag
      rw [if_neg (by simp [hne]), hp]
    cases hsel : selectBestGroup cv (buildGroups tags) with
    | none =>
      exfalso
      obtain ⟨⟨g, hg, hgsem⟩, _⟩ := buildGroups_complete tags ht hv
      have := selectBestGroup_none hsel g hg
      rw [hgsem] at this
      omega
    | some best =>
      simp only [hsel] at hform
      rw [hform]
      obtain ⟨hbestmem, _, _⟩ := selectBestGroup_some hsel
      obtain ⟨hbne, hbsound⟩ := buildGroups_sound tags best hbestmem
      have hpick := pickFromGroup_mem (ExtractVersionSuffix current) best.tags hbne
      have hparse := hbsound _ hpick
      intro hcon
      rw [hcon] at hparse
      have : parseFlexibleSemver "" = Option.none := by decide
      rw [this] at hparse
      cases hparse

set_option maxHeartbeats 2000000 in
/-- C4 witness: the quantified conjuncts instantiated — the fallback at an
unparseable current tag, candidate membership and suffix preservation in the
spec scenario, and non-emptiness when a strictly greater candidate exists. -/
theorem findBestUpdateTag_spec_witness :
    FindBestUpdateTag "latest" ["1.0.0", "2.0.0"] =
      (SortVersions ["1.0.0", "2.0.0"]).headD "" ∧
    FindBestUpdateTag "2.32.0-alpine" ["2.33.2-alpine", "2.33.2"] ∈
      ["2.33.2-alpine", "2.33.2"] ∧
    FindBestUpdateTag "1.0.0" ["2.0.0"] ≠ "" := by
  refine ⟨?_, ?_, ?_⟩
  · exact findBestUpdateTag_spec.2.1 "latest" ["1.0.0", "2.0.0"]
      (by decide) (by decide)
  · exact (findBestUpdateTag_spec.2.2.1 "2.32.0-alpine" ["2.33.2-alpine", "2.33.2"]
      { major := 2, minor := 32, patch := 0, pre := "", metadata := "" }
      (by decide) (by decide)).1
  · exact findBestUpdateTag_spec.2.2.2 "1.0.0" ["2.0.0"]
      { major := 1, minor := 0, patch := 0, pre := "", metadata := "" }
      (by decide)
      ⟨"2.0.0", by decide,
       { major := 2, minor := 0, patch := 0, pre := "", metadata := "" },
       by decide, by decide⟩

/-! ## Claim C8: per-task registry selection, fetch and classification -/

/-- The registry-matching rule exactly as claim C8 states it: case-insensitive
equality of capability identity and registry field, with `docker.io` /
`dockerhub` identities also matching an empty registry field.  (Spec-side
definition, written from the claim's words to compare against the
implementation's `canHandleRegistry`.) -/
def claimRegistryMatch (identity registry : String) : Bool :=
  (goToLower identity = goToLower registry) ||
    ((goToLower identity = "docker.io" || goToLower identity = "dockerhub") &&
      registry = "")

/-- The registry-matching rule of the amended claim, as a predicate:
`docker.io`/`dockerhub` identities match the `docker.io` registry or an empty
registry field; `ghcr.io`/`ghcr` identities match the `ghcr.io` registry; any
other identity matches by case-insensitive equality.  (Spec-side definition,
to be compared with `canHandleRegistry`.) -/
def specRegistryMatch (identity registry : String) : Prop :=
  ((goToLower identity = "docker.io" ∨ goToLower identity = "dockerhub") ∧
    (goToLower registry = "docker.io" ∨ goToLower registry = "")) ∨
  ((goToLower identity = "ghcr.io" ∨ goToLower identity = "ghcr") ∧
    goToLower registry = "ghcr.io") ∨
  (goToLower identity ≠ "docker.io" ∧ goToLower identity ≠ "dockerhub" ∧
    goToLower identity ≠ "ghcr.io" ∧ goToLower identity ≠ "ghcr" ∧
    goToLower identity = goToLower registry)

instance (identity registry : String) : Decidable (specRegistryMatch identity registry) := by
  unfold specRegistryMatch
  infer_instance

/-- C8 counterexample: the claim's matching rule (case-insensitive equality
plus the docker.io/empty special case) rejects the pair
(identity `"ghcr"`, registry `"ghcr.io"`), so by the claim the task must fail
with "no registry client available"; the code's `switch` has a dedicated
`ghcr` alias case, selects that capability and produces an update outcome. -/
theorem checkImage_counterexample :
    claimRegistryMatch "ghcr" "ghcr.io" = false ∧
    checkImageForUpdates
      [{ name := "ghcr", getLatestTags := fun _ => .ok ["2.0.0"] }]
      "svc:x"
      { registry := "ghcr.io", repository := "r", tag := "1.0.0" } =
      some (.update
        { serviceName := "svc",
          currentImage := { registry := "ghcr.io", repository := "r", tag := "1.0.0" },
          latestImage := { registry := "ghcr.io", repository := "r", tag := "2.0.0" },
          updateType := .major }) := by
  exact ⟨by decide, by rfl⟩

/-- C8 (amended): per-task behaviour of `checkImageForUpdates`.  The selected
capability is the first whose `canHandleRegistry` test passes, and that test
is equivalent to the amended matching rule (`specRegistryMatch`), which adds
the `ghcr.io`/`ghcr` alias case to the claim's rule.  With no match the task
fails with "no registry client available" (no batch abort — the function
totals to an outcome).  Otherwise the capability's tag listing is consulted:
an error or empty list yields a per-task failure; a non-empty list is
filtered of pre-releases (falling back to the unfiltered list when filtering
empties it) and sorted descending; when the sorted list is empty the task
panics (modelled as `Option.none`; the claim's unconditional
latest-tag step is amended by this case); otherwise its head is classified —
`none` yields an up-to-date outcome and anything else an update carrying the
current image, the resolved latest image and the classification. -/
theorem checkImage_spec (registries : List RegistryClient)
    (serviceKey : String) (image : DockerImage) :
    (∀ (r : RegistryClient) (reg : String),
      canHandleRegistry r reg = true ↔ specRegistryMatch r.name reg) ∧
    ((∀ r ∈ registries, ¬ specRegistryMatch r.name image.registry) →
      checkImageForUpdates registries serviceKey image =
        some (.failed ("no registry client available for " ++ image.str ++
          " (registry: " ++ image.registry ++ ")"))) ∧
    (∀ client,
      registries.find? (fun r => canHandleRegistry r image.registry) = some client →
      ((∀ e, client.getLatestTags image = .error e →
          checkImageForUpdates registries serviceKey image =
            some (.failed ("getting tags for " ++ image.str ++ ": " ++ e))) ∧
       (client.getLatestTags image = .ok [] →
          checkImageForUpdates registries serviceKey image =
            some (.failed ("no tags found for " ++ image.str))) ∧
       (∀ tags, client.getLatestTags image = .ok tags → tags ≠ [] →
          ((SortVersions (if (FilterPreReleases tags).isEmpty then tags
              else FilterPreReleases tags) = [] →
            checkImageForUpdates registries serviceKey image = Option.none) ∧
           (∀ latest rest,
            SortVersions (if (FilterPreReleases tags).isEmpty then tags
              else FilterPreReleases tags) = latest :: rest →
            ((CompareVersions image.tag latest = UpdateType.none →
              checkImageForUpdates registries serviceKey image =
                some (.upToDate
                  (String.mk ((splitOnChar ':' serviceKey.data).headD [])))) ∧
             (CompareVersions image.tag latest ≠ UpdateType.none →
              checkImageForUpdates registries serviceKey image =
                some (.update
                  { serviceName :=
                      String.mk ((splitOnChar ':' serviceKey.data).headD []),
                    currentImage := image,
                    latestImage :=
                      { registry := image.registry,
                        repository := image.repository,
                        tag := latest },
                    updateType := CompareVersions image.tag latest })))))))) := by
  refine ⟨?_, ?_, ?_⟩
  · intro r reg
    unfold canHandleRegistry specRegistryMatch
    by_cases h1 : goToLower r.name = "docker.io" <;>
      by_cases h2 : goToLower r.name = "dockerhub" <;>
        by_cases h3 : goToLower r.name = "ghcr.io" <;>
          by_cases h4 : goToLower r.name = "ghcr" <;>
            simp_all
  · intro hnone
    have hfind : registries.find? (fun r => canHandleRegistry r image.registry) =
        Option.none := by
      rw [List.find?_eq_none]
      intro r hr hcon
      exact hnone r hr (by
        have hiff : canHandleRegistry r image.registry = true ↔
            specRegistryMatch r.name image.registry := by
          unfold canHandleRegistry specRegistryMatch
          by_cases h1 : goToLower r.name = "docker.io" <;>
            by_cases h2 : goToLower r.name = "dockerhub" <;>
              by_cases h3 : goToLower r.name = "ghcr.io" <;>
                by_cases h4 : goToLower r.name = "ghcr" <;>
                  simp_all
        exact hiff.mp hcon)
    unfold checkImageForUpdates
    rw [hfind]
  · intro client hfind
    refine ⟨?_, ?_, ?_⟩
    · intro e herr
      unfold checkImageForUpdates
      simp only [hfind, herr]
    · intro hok
      unfold checkImageForUpdates
      simp only [hfind, hok]
      rfl
    · intro tags hok hne
      have hisEmpty : tags.isEmpty = false := by
        cases tags with
        | nil => exact absurd rfl hne
        | cons x xs => rfl
      refine ⟨?_, ?_⟩
      · intro hsorted
        unfold checkImageForUpdates
        simp only [hfind, hok, hisEmpty, Bool.false_eq_true, if_false, hsorted]
      · intro latest rest hsorted
        refine ⟨?_, ?_⟩
        · intro hcmp
          unfold checkImageForUpdates
          simp only [hfind, hok, hisEmpty, Bool.false_eq_true, if_false, hsorted, hcmp]
        · intro hcmp
          unfold checkImageForUpdates
          simp only [hfind, hok, hisEmpty, Bool.false_eq_true, if_false, hsorted]

/-- C8 witness: the amended statement at concrete inputs — the matching-rule
equivalence at (`"DockerHub"`, `""`), the no-match failure with an empty
capability list, and the classified-update case for a docker-hub stub
returning `["2.0.0"]` against current tag `1.0.0`. -/
theorem checkImage_spec_witness :
    specRegistryMatch "DockerHub" "" ∧
    checkImageForUpdates [] "svc:x"
      { registry := "", repository := "r", tag := "1.0.0" } =
      some (.failed "no registry client available for /r:1.0.0 (registry: )") ∧
    checkImageForUpdates
      [{ name := "dockerhub", getLatestTags := fun _ => .ok ["2.0.0"] }]
      "svc:x" { registry := "", repository := "r", tag := "1.0.0" } =
      some (.update
        { serviceName := "svc",
          currentImage := { registry := "", repository := "r", tag := "1.0.0" },
          latestImage := { registry := "", repository := "r", tag := "2.0.0" },
          updateType := .major }) := by
  refine ⟨?_, ?_, ?_⟩
  · exact (checkImage_spec []
      "svc:x" { registry := "", repository := "r", tag := "1.0.0" }).1
      { name := "DockerHub", getLatestTags := fun _ => .ok [] } "" |>.mp (by decide)
  · have h := (checkImage_spec [] "svc:x"
      { registry := "", repository := "r", tag := "1.0.0" }).2.1 (by simp)
    rw [h]
    rfl
  · have h := ((checkImage_spec
      [{ name := "dockerhub", getLatestTags := fun _ => .ok ["2.0.0"] }]
      "svc:x" { registry := "", repository := "r", tag := "1.0.0" }).2.2
      { name := "dockerhub", getLatestTags := fun _ => .ok ["2.0.0"] }
      (by rfl)).2.2 ["2.0.0"] (by rfl) (by decide)
    have h2 := (h.2 "2.0.0" [] (by decide)).2 (by decide)
    rw [h2]
    rfl

/-! ## Claim C9: batch aggregation -/

/-- The update outcomes of a batch, in task order. -/
def updatesOf (registries : List RegistryClient)
    (images : List (String × DockerImage)) : List ImageUpdate :=
  images.filterMap (fun p =>
    match checkImageForUpdates registries p.1 p.2 with
    | some (ScanOutcome.update x) => some x
    | _ => Option.none)

/-- The up-to-date service names of a batch, in task order. -/
def upToDateOf (registries : List RegistryClient)
    (images : List (String × DockerImage)) : List String :=
  images.filterMap (fun p =>
    match checkImageForUpdates registries p.1 p.2 with
    | some (ScanOutcome.upToDate s) => some s
    | _ => Option.none)

/-- The per-task error messages of a batch, in task order. -/
def failuresOf (registries : List RegistryClient)
    (images : List (String × DockerImage)) : List String :=
  images.filterMap (fun p =>
    match checkImageForUpdates registries p.1 p.2 with
    | some (ScanOutcome.failed m) => some m
    | _ => Option.none)

/-- C9 counterexample: a task whose registry returns only semantic-looking
but flexibly-unparseable tags panics (`sortedTags[0]` on an empty slice) and,
in Go, a goroutine panic crashes the whole process: the batch does not return
a structured aggregate (modelled as `Option.none`). -/
theorem checkForUpdates_counterexample :
    checkForUpdates
      [{ name := "dockerhub", getLatestTags := fun _ => .ok ["1.2.3.4", "5.6.7.8"] }]
      [("svc:r:1.0.0", { registry := "", repository := "r", tag := "1.0.0" })] =
      Option.none := by
  rfl

theorem batch_fold (registries : List RegistryClient) :
    ∀ (images : List (String × DockerImage))
      (u : List ImageUpdate) (d e : List String),
      (∀ p ∈ images, checkImageForUpdates registries p.1 p.2 ≠ Option.none) →
      images.foldl (batchStep registries) (some (u, d, e)) =
        some (u ++ updatesOf registries images, d ++ upToDateOf registries images,
              e ++ failuresOf registries images) := by
  intro images
  induction images with
  | nil => intro u d e _; simp [updatesOf, upToDateOf, failuresOf]
  | cons p ps ih =>
    intro u d e h
    have hp := h p (List.mem_cons_self _ _)
    simp only [List.foldl_cons]
    cases hout : checkImageForUpdates registries p.1 p.2 with
    | none => exact absurd hout hp
    | some outcome =>
      have hrest : ∀ q ∈ ps, checkImageForUpdates registries q.1 q.2 ≠ Option.none :=
        fun q hq => h q (List.mem_cons_of_mem _ hq)
      cases outcome with
      | update x =>
        have hstep : batchStep registries (some (u, d, e)) p = some (u ++ [x], d, e) := by
          unfold batchStep
          rw [hout]
        rw [hstep, ih _ _ _ hrest]
        simp [updatesOf, upToDateOf, failuresOf, hout]
      | upToDate s =>
        have hstep : batchStep registries (some (u, d, e)) p = some (u, d ++ [s], e) := by
          unfold batchStep
          rw [hout]
        rw [hstep, ih _ _ _ hrest]
        simp [updatesOf, upToDateOf, failuresOf, hout]
      | failed m =>
        have hstep : batchStep registries (some (u, d, e)) p = some (u, d, e ++ [m]) := by
          unfold batchStep
          rw [hout]
        rw [hstep, ih _ _ _ hrest]
        simp [updatesOf, upToDateOf, failuresOf, hout]

theorem outcome_partition_length (registries : List RegistryClient) :
    ∀ (images : List (String × DockerImage)),
      (∀ p ∈ images, checkImageForUpdates registries p.1 p.2 ≠ Option.none) →
      (updatesOf registries images).length + (upToDateOf registries images).length +
        (failuresOf registries images).length = images.length := by
  intro images
  induction images with
  | nil => intro _; simp [updatesOf, upToDateOf, failuresOf]
  | cons p ps ih =>
    intro h
    have hp := h p (List.mem_cons_self _ _)
    have hrest := ih (fun q hq => h q (List.mem_cons_of_mem _ hq))
    cases hout : checkImageForUpdates registries p.1 p.2 with
    | none => exact absurd hout hp
    | some outcome =>
      cases outcome <;>
        simp only [updatesOf, upToDateOf, failuresOf, List.filterMap_cons, hout] <;>
        simp only [updatesOf, upToDateOf, failuresOf] at hrest <;>
        simp [hrest] <;> omega

/-- C9 (amended): for a batch in which no task panics (every per-task check
yields an outcome; see the counterexample for the panic case), the
orchestrator returns a structured aggregate in which each task contributes
exactly one outcome to exactly one of the three partitions — the counts add
up to the number of tasks, and no per-task failure aborts the batch (failures
land in the error partition). -/
theorem checkForUpdates_spec (registries : List RegistryClient)
    (images : List (String × DockerImage))
    (h : ∀ p ∈ images, checkImageForUpdates registries p.1 p.2 ≠ Option.none) :
    checkForUpdates registries images =
      some (updatesOf registries images, upToDateOf registries images,
            failuresOf registries images) ∧
    (updatesOf registries images).length + (upToDateOf registries images).length +
      (failuresOf registries images).length = images.length := by
  refine ⟨?_, outcome_partition_length registries images h⟩
  unfold checkForUpdates
  cases images with
  | nil => simp [updatesOf, upToDateOf, failuresOf]
  | cons p ps =>
    rw [if_neg (by simp)]
    simpa using batch_fold registries (p :: ps) [] [] [] h

/-- C9 witness: a three-task batch — one update (current `1.0.0`, latest
`2.0.0`), one up-to-date (current `2.0.0`), one failure (no capability for
`quay.io`) — returns a structured aggregate with one outcome per task. -/
theorem checkForUpdates_spec_witness :
    (checkForUpdates
      [{ name := "dockerhub", getLatestTags := fun _ => .ok ["2.0.0"] }]
      [("a:r:1.0.0", { registry := "", repository := "r", tag := "1.0.0" }),
       ("b:r:2.0.0", { registry := "", repository := "r", tag := "2.0.0" }),
       ("c:r:1.0.0", { registry := "quay.io", repository := "r", tag := "1.0.0" })]).isSome =
      true := by
  have h := checkForUpdates_spec
    [{ name := "dockerhub", getLatestTags := fun _ => .ok ["2.0.0"] }]
    [("a:r:1.0.0", { registry := "", repository := "r", tag := "1.0.0" }),
     ("b:r:2.0.0", { registry := "", repository := "r", tag := "2.0.0" }),
     ("c:r:1.0.0", { registry := "quay.io", repository := "r", tag := "1.0.0" })]
    (by decide)
  rw [h.1]
  rfl

end ImageReporter
